import Mathlib

/-!
Verification of the DAG utilities in prog.py (class DAG): construction with
acyclicity validation by Kahn topological sort, path counting by dynamic
programming over the topological order, depth-first enumeration of all
source-to-target paths, neighbor lookup, and the constrained insertion
proposal for a fresh vertex.

The shallow embedding below mirrors the Python source.  A Python dict or
defaultdict of integers is modelled as a total function over Int with
pointwise update (missing keys read as the default 0, matching
defaultdict(int) and dict.get(k, 0)).  A Python set is modelled by a
duplicate-free list in first-insertion order; all verified statements are
independent of the iteration order of the set.  The unbounded while loop and
the unbounded recursion of the source are given explicit fuel; theorems show
the chosen fuel is enough, so larger fuel gives the same value.  The
human-readable message strings returned by the source are not modelled.
-/

set_option maxHeartbeats 2000000
set_option linter.unusedVariables false

/-- An edge of the graph: (from, to, weight), as in prog.py. -/
abbrev GEdge := Int × Int × Int

/-- Append an element to a list when it is not already present.  Models the
first insertion of a value into a Python set. -/
def insertNew (l : List Int) (x : Int) : List Int :=
  if x ∈ l then l else l ++ [x]

/-- The vertex set of the graph (DAG.__init__): both endpoints of every edge
plus the source, in first-insertion order. -/
def verticesOf (E : List GEdge) (s : Int) : List Int :=
  insertNew (E.foldl (fun l e => insertNew (insertNew l e.1) e.2.1) []) s

/-- Forward adjacency (self.adj): the (target, weight) pairs of edges leaving
u, in edge-list order. -/
def adjOf (E : List GEdge) (u : Int) : List (Int × Int) :=
  E.filterMap (fun e => if e.1 = u then some (e.2.1, e.2.2) else none)

/-- Reverse adjacency (self.rev_adj): the (origin, weight) pairs of edges
entering v, in edge-list order. -/
def revAdjOf (E : List GEdge) (v : Int) : List (Int × Int) :=
  E.filterMap (fun e => if e.2.1 = v then some (e.1, e.2.2) else none)

/-- Pointwise update of an integer map, modelling dict assignment. -/
def upd (m : Int → Int) (k : Int) (x : Int) : Int → Int :=
  fun y => if y = k then x else m y

/-- Number of edges entering v, as a natural number. -/
def indegNat (E : List GEdge) (v : Int) : Nat :=
  (E.filter (fun e => decide (e.2.1 = v))).length

/-- Initial indegree map of DAG._validate_dag. -/
def indeg0 (E : List GEdge) (v : Int) : Int :=
  (indegNat E v : Int)

/-- One popped vertex of Kahn's algorithm: walk its adjacency list,
decrement the indegree of each target, and collect (in order) the targets
whose indegree reaches exactly zero. -/
def processAdj : List (Int × Int) → (Int → Int) → ((Int → Int) × List Int)
  | [], ind => (ind, [])
  | (v, _) :: rest, ind =>
      let d := ind v - 1
      let r := processAdj rest (upd ind v d)
      (r.1, (if d = 0 then [v] else []) ++ r.2)

/-- The while loop of DAG._validate_dag, with explicit fuel.  The fuel never
runs out before the queue empties (see kahnTopo_out). -/
def kahnLoop (E : List GEdge) : Nat → List Int → (Int → Int) → List Int → List Int
  | 0, _, _, topo => topo
  | _ + 1, [], _, topo => topo
  | n + 1, u :: q, ind, topo =>
      let r := processAdj (adjOf E u) ind
      kahnLoop E n (q ++ r.2) r.1 (topo ++ [u])

/-- The topological order computed by DAG._validate_dag. -/
def kahnTopo (E : List GEdge) (s : Int) : List Int :=
  let vs := verticesOf E s
  kahnLoop E vs.length (vs.filter (fun v => decide (indeg0 E v = 0)))
    (fun v => indeg0 E v) []

/-- Construction succeeds (no ValueError raised) exactly when the
topological order covers every vertex: len(topo) == len(self.vertices). -/
@[reducible] def constructionOk (E : List GEdge) (s : Int) : Prop :=
  (kahnTopo E s).length = (verticesOf E s).length

/-- One step of the path-counting dynamic program (the inner loop of
DAG.path_counts): add cnt[u] to cnt[v] for every edge (u, v). -/
def dpStep (E : List GEdge) (m : Int → Int) (u : Int) : Int → Int :=
  (adjOf E u).foldl (fun m1 vw => upd m1 vw.1 (m1 vw.1 + m1 u)) m

/-- DAG.path_counts: counts of distinct source-to-v paths, computed by a
fold over the topological order starting from cnt = {source: 1, rest: 0}. -/
def path_counts (E : List GEdge) (s : Int) : Int → Int :=
  (kahnTopo E s).foldl (dpStep E) (upd (fun _ => 0) s 1)

/-- Concatenation of a list of lists. -/
def catLists : List (List α) → List α
  | [] => []
  | l :: ls => l ++ catLists ls

/-- The recursive dfs of DAG.enumerate_paths, with explicit fuel: at the
target record the accumulated path and cost, otherwise extend the path along
every outgoing edge.  Results appear in depth-first discovery order. -/
def dfsPaths (E : List GEdge) (target : Int) : Nat → Int → Int → List Int → List (List Int × Int)
  | 0, u, cost, p => if u = target then [(p, cost)] else []
  | n + 1, u, cost, p =>
      if u = target then [(p, cost)] else
      catLists ((adjOf E u).map (fun vw => dfsPaths E target n vw.1 (cost + vw.2) (p ++ [vw.1])))

/-- DAG.enumerate_paths: all source-to-target paths with their costs.  The
fuel equals the number of vertices, which suffices on a validated graph. -/
def enumerate_paths (E : List GEdge) (s : Int) (target : Int) : List (List Int × Int) :=
  dfsPaths E target (verticesOf E s).length s 0 [s]

/-- DAG.neighbors_of: vertices sharing an edge with v in either direction,
with v itself removed.  Modelled as a list whose membership agrees with the
Python set. -/
def neighbors_of (E : List GEdge) (v : Int) : List Int :=
  (((revAdjOf E v).map Prod.fst) ++ ((adjOf E v).map Prod.fst)).filter
    (fun u => decide (¬ u = v))

/-- max(self.vertices) over a nonempty list. -/
def listMax : List Int → Int
  | [] => 0
  | x :: xs => xs.foldl max x

/-- The descending-by-count comparison used by candidates.sort(key=count,
reverse=True). -/
def descRel (a b : Int × Int) : Prop := b.2 ≤ a.2

instance : DecidableRel descRel := fun a b => inferInstanceAs (Decidable (b.2 ≤ a.2))

instance : IsTotal (Int × Int) descRel := ⟨fun a b => le_total b.2 a.2⟩

instance : IsTrans (Int × Int) descRel := ⟨fun _ _ _ h1 h2 => le_trans h2 h1⟩

/-- Stable descending sort by path count.  Python list.sort is stable, and a
stable sort output is uniquely determined by the key order, so insertion
sort reproduces it exactly. -/
def sortDesc (l : List (Int × Int)) : List (Int × Int) :=
  l.insertionSort descRel

/-- The greedy accumulation loop of DAG.propose_vprime_insertion: skip
candidates with nonpositive count, otherwise add the candidate and stop as
soon as the running total strictly exceeds max_paths. -/
def greedyLoop : List (Int × Int) → Int → Int → List Int → Int × List Int
  | [], _, total, chosen => (total, chosen)
  | (u, c) :: rest, maxPaths, total, chosen =>
      if c ≤ 0 then greedyLoop rest maxPaths total chosen
      else
        if maxPaths < total + c then (total + c, chosen ++ [u])
        else greedyLoop rest maxPaths (total + c) (chosen ++ [u])

/-- DAG.propose_vprime_insertion, returning the success flag and the list of
proposed edges (the human-readable message of the source is not modelled). -/
def propose_vprime_insertion (E : List GEdge) (s : Int) (v : Int) (weight_default : Int) :
    Bool × List GEdge :=
  let cnt := path_counts E s
  let banned := neighbors_of E v
  let candidates := ((verticesOf E s).filter (fun u => decide (¬ u ∈ banned))).map
    (fun u => (u, cnt u))
  let r := greedyLoop (sortDesc candidates) (cnt v) 0 []
  if r.1 ≤ cnt v then (false, [])
  else (true, r.2.map (fun u => (u, listMax (verticesOf E s) + 1, weight_default)))

/-- Reachability from the source along directed edges. -/
inductive Reach (E : List GEdge) (s : Int) : Int → Prop
  | base : Reach E s s
  | step {u v w : Int} : Reach E s u → (u, v, w) ∈ E → Reach E s v

/-- One directed edge from a to b, with any weight. -/
def EStep (E : List GEdge) (a b : Int) : Prop := ∃ w, (a, b, w) ∈ E

/-- The edge list contains a directed cycle: a nonempty edge path from some
vertex back to itself. -/
def HasCycle (E : List GEdge) : Prop := ∃ v, Relation.TransGen (EStep E) v v

/-! ### Generic list helpers -/

/-- Integer-valued sum of a function over a list. -/
def lsum (l : List α) (f : α → Int) : Int := (l.map f).sum

theorem lsum_nil (f : α → Int) : lsum ([] : List α) f = 0 := rfl

theorem lsum_cons (a : α) (l : List α) (f : α → Int) : lsum (a :: l) f = f a + lsum l f := by
  simp [lsum]

theorem lsum_append (l1 l2 : List α) (f : α → Int) :
    lsum (l1 ++ l2) f = lsum l1 f + lsum l2 f := by
  simp [lsum]

theorem lsum_congr {l : List α} {f g : α → Int} (h : ∀ a ∈ l, f a = g a) :
    lsum l f = lsum l g := by
  induction l with
  | nil => rfl
  | cons a l ih =>
      rw [lsum_cons, lsum_cons, h a (by simp), ih (fun b hb => h b (by simp [hb]))]

theorem lsum_zero (l : List α) : lsum l (fun _ => 0) = 0 := by
  induction l with
  | nil => rfl
  | cons a l ih => rw [lsum_cons, ih]; omega

theorem lsum_add (l : List α) (f g : α → Int) :
    lsum l (fun a => f a + g a) = lsum l f + lsum l g := by
  induction l with
  | nil => rfl
  | cons a l ih => rw [lsum_cons, lsum_cons, lsum_cons, ih]; ring

theorem lsum_swap (l : List α) (l' : List β) (h : α → β → Int) :
    lsum l (fun a => lsum l' (fun b => h a b)) = lsum l' (fun b => lsum l (fun a => h a b)) := by
  induction l with
  | nil => simp only [lsum_nil, lsum_zero]
  | cons a l ih =>
      rw [lsum_cons, ih]
      simp only [lsum_cons]
      rw [lsum_add]

theorem lsum_nonneg {l : List α} {f : α → Int} (h : ∀ a ∈ l, 0 ≤ f a) : 0 ≤ lsum l f := by
  induction l with
  | nil => exact le_refl 0
  | cons a l ih =>
      rw [lsum_cons]
      have h1 := h a (by simp)
      have h2 := ih (fun b hb => h b (by simp [hb]))
      omega

theorem lsum_mem_le {l : List α} {f : α → Int} {a : α} (ha : a ∈ l)
    (h : ∀ b ∈ l, 0 ≤ f b) : f a ≤ lsum l f := by
  induction l with
  | nil => cases ha
  | cons b l ih =>
      rw [lsum_cons]
      rcases List.mem_cons.1 ha with h1 | h1
      · subst h1
        have := lsum_nonneg (fun c hc => h c (List.mem_cons_of_mem a hc))
        omega
      · have h2 := ih h1 (fun c hc => h c (List.mem_cons_of_mem b hc))
        have h3 := h b (by simp)
        omega

theorem lsum_ne_zero_ex {l : List α} {f : α → Int} (h : lsum l f ≠ 0) :
    ∃ a ∈ l, f a ≠ 0 := by
  induction l with
  | nil => exact absurd rfl h
  | cons a l ih =>
      rw [lsum_cons] at h
      by_cases ha : f a = 0
      · rcases ih (by omega) with ⟨b, hb, hfb⟩
        exact ⟨b, by simp [hb], hfb⟩
      · exact ⟨a, by simp, ha⟩

theorem lsum_map (l : List α) (g : α → β) (f : β → Int) :
    lsum (l.map g) f = lsum l (fun a => f (g a)) := by
  simp [lsum, List.map_map]; rfl

theorem filterMapSum (l : List α) (q : α → Bool) (f : α → Int) :
    ((l.filter q).map f).sum = lsum l (fun a => if q a = true then f a else 0) := by
  induction l with
  | nil => rfl
  | cons a l ih =>
      by_cases h : q a = true
      · rw [lsum_cons, List.filter_cons_of_pos h, if_pos h, List.map_cons, List.sum_cons, ih]
      · rw [lsum_cons, List.filter_cons_of_neg (by simpa using h), if_neg h, ih]
        omega

theorem ite_lsum (c : Prop) [Decidable c] (l : List α) (f : α → Int) :
    (if c then lsum l f else 0) = lsum l (fun a => if c then f a else 0) := by
  by_cases h : c
  · simp [h]
  · simp [h, lsum_zero]

theorem lsum_ite_count (l : List α) (p : α → Prop) [DecidablePred p] (c : Int) :
    lsum l (fun a => if p a then c else 0) = (l.countP (fun a => decide (p a)) : Int) * c := by
  induction l with
  | nil => simp [lsum_nil]
  | cons a l ih =>
      rw [lsum_cons, ih, List.countP_cons]
      by_cases h : p a
      · simp [h]; ring
      · simp [h]

/-- Strong induction on the natural numbers, self-contained. -/
theorem strongNat (P : Nat → Prop) (h : ∀ n, (∀ m, m < n → P m) → P n) : ∀ n, P n := by
  have key : ∀ n m, m ≤ n → P m := by
    intro n
    induction n with
    | zero => intro m hm; exact h m (fun k hk => absurd (Nat.lt_of_lt_of_le hk hm) (Nat.not_lt_zero k))
    | succ n ih =>
        intro m hm
        apply h
        intro k hk
        exact ih k (by omega)
  exact fun n => key n n (le_refl n)

/-- Position of the first occurrence of x in l (length of l when absent). -/
def posIn (l : List Int) (x : Int) : Nat :=
  match l with
  | [] => 0
  | y :: ys => if x = y then 0 else posIn ys x + 1

theorem posIn_lt {l : List Int} {x : Int} (h : x ∈ l) : posIn l x < l.length := by
  induction l with
  | nil => cases h
  | cons y ys ih =>
      by_cases hx : x = y
      · simp [posIn, hx]
      · rcases List.mem_cons.1 h with h1 | h1
        · exact absurd h1 hx
        · simp only [posIn, if_neg hx, List.length_cons]
          exact Nat.succ_lt_succ (ih h1)

theorem get_posIn {l : List Int} {x : Int} (h : x ∈ l) :
    l.get ⟨posIn l x, posIn_lt h⟩ = x := by
  induction l with
  | nil => cases h
  | cons y ys ih =>
      by_cases hx : x = y
      · simp [posIn, hx]
      · rcases List.mem_cons.1 h with h1 | h1
        · exact absurd h1 hx
        · simp only [posIn, if_neg hx]
          exact ih h1

theorem mem_take_posIn {l : List Int} {x : Int} (h : x ∈ l) :
    x ∈ l.take (posIn l x + 1) := by
  induction l with
  | nil => cases h
  | cons y ys ih =>
      by_cases hx : x = y
      · simp [posIn, hx]
      · rcases List.mem_cons.1 h with h1 | h1
        · exact absurd h1 hx
        · simp only [posIn, if_neg hx, List.take_succ_cons]
          exact List.mem_cons_of_mem y (ih h1)

theorem posIn_lt_of_mem_take {l : List Int} {x : Int} {n : Nat} (h : x ∈ l.take n) :
    posIn l x < n := by
  induction l generalizing n with
  | nil => simp at h
  | cons y ys ih =>
      cases n with
      | zero => simp at h
      | succ n =>
          rw [List.take_succ_cons] at h
          by_cases hx : x = y
          · simp [posIn, hx]
          · rcases List.mem_cons.1 h with h1 | h1
            · exact absurd h1 hx
            · simp only [posIn, if_neg hx]
              exact Nat.succ_lt_succ (ih h1)

theorem posIn_ne_of_ne {l : List Int} {x y : Int} (hx : x ∈ l) (hy : y ∈ l) (hne : x ≠ y) :
    posIn l x ≠ posIn l y := by
  intro hEq
  apply hne
  have h1 := get_posIn hx
  have h2 := get_posIn hy
  rw [Eq.symm h1, Eq.symm h2]
  congr 1
  exact Fin.ext hEq

theorem countP_lt_of_mem {l : List α} {p q : α → Bool} {a : α} (ha : a ∈ l)
    (hpa : p a) (hqa : ¬ q a) (himp : ∀ x ∈ l, q x → p x) :
    l.countP q < l.countP p := by
  induction l with
  | nil => cases ha
  | cons b l ih =>
      rw [List.countP_cons, List.countP_cons]
      rcases List.mem_cons.1 ha with h1 | h1
      · subst h1
        have hle := List.countP_mono_left (fun x hx => himp x (List.mem_cons_of_mem a hx))
        simp [hpa, hqa]
        omega
      · have hlt := ih h1 (fun x hx => himp x (List.mem_cons_of_mem b hx))
        by_cases hqb : q b
        · have hpb := himp b (by simp) hqb
          simp only [hqb, hpb, if_pos]
          omega
        · by_cases hpb : p b <;> simp [hqb, hpb] <;> omega

theorem countP_eq_imp {l : List α} {p q : α → Bool} (himp : ∀ a ∈ l, q a → p a)
    (hEq : l.countP p = l.countP q) : ∀ a ∈ l, p a → q a := by
  intro a ha hpa
  by_contra hqa
  have := countP_lt_of_mem ha hpa hqa himp
  omega

theorem countP_lt_ex {l : List α} {p q : α → Bool}
    (hlt : l.countP q < l.countP p) : ∃ a ∈ l, p a ∧ ¬ q a := by
  by_contra hcon
  push_neg at hcon
  have himp : ∀ a ∈ l, p a → q a := by
    intro a ha hpa
    by_contra hq
    exact hq (hcon a ha hpa)
  have := List.countP_mono_left himp
  omega

theorem countP_split {l : List α} {p q r : α → Bool}
    (h : ∀ a ∈ l, p a = (q a || r a)) (hdis : ∀ a ∈ l, ¬ (q a ∧ r a)) :
    l.countP p = l.countP q + l.countP r := by
  induction l with
  | nil => simp
  | cons b l ih =>
      rw [List.countP_cons, List.countP_cons, List.countP_cons,
        ih (fun a ha => h a (List.mem_cons_of_mem b ha))
          (fun a ha => hdis a (List.mem_cons_of_mem b ha))]
      have hb := h b (by simp)
      have hdb := hdis b (by simp)
      by_cases hq : q b
      · have : ¬ r b = true := fun hr => hdb ⟨hq, hr⟩
        simp [hb, hq, this]
        omega
      · by_cases hr : r b
        · simp [hb, hq, hr]
          omega
        · simp [hb, hq, hr]

/-! ### Basic facts about the vertex list and adjacency -/

theorem mem_insertNew {l : List Int} {x y : Int} :
    y ∈ insertNew l x ↔ y ∈ l ∨ y = x := by
  unfold insertNew
  by_cases h : x ∈ l
  · simp only [if_pos h]
    constructor
    · exact fun hy => Or.inl hy
    · rintro (hy | hy)
      · exact hy
      · exact hy ▸ h
  · simp [if_neg h]

theorem insertNew_nodup {l : List Int} {x : Int} (h : l.Nodup) : (insertNew l x).Nodup := by
  unfold insertNew
  by_cases hx : x ∈ l
  · simpa [if_pos hx]
  · rw [if_neg hx]
    rw [List.nodup_append]
    refine ⟨h, List.nodup_singleton x, ?_⟩
    intro a ha hax
    rw [List.mem_singleton] at hax
    exact hx (hax ▸ ha)

theorem verticesOf_nodup (E : List GEdge) (s : Int) : (verticesOf E s).Nodup := by
  unfold verticesOf
  apply insertNew_nodup
  have key : ∀ (l : List Int), l.Nodup →
      (E.foldl (fun l e => insertNew (insertNew l e.1) e.2.1) l).Nodup := by
    induction E with
    | nil => intro l h; exact h
    | cons e E ih =>
        intro l h
        exact ih _ (insertNew_nodup (insertNew_nodup h))
  exact key [] List.nodup_nil

theorem foldl_insert_sub {E : List GEdge} {l : List Int} {x : Int} (h : x ∈ l) :
    x ∈ E.foldl (fun l e => insertNew (insertNew l e.1) e.2.1) l := by
  induction E generalizing l with
  | nil => exact h
  | cons e E ih => exact ih (mem_insertNew.2 (Or.inl (mem_insertNew.2 (Or.inl h))))

theorem mem_verticesOf_src (E : List GEdge) (s : Int) : s ∈ verticesOf E s :=
  mem_insertNew.2 (Or.inr rfl)

theorem foldl_insert_of_edge :
    ∀ (E : List GEdge) (e : GEdge), e ∈ E → ∀ (l : List Int),
      e.1 ∈ E.foldl (fun l e => insertNew (insertNew l e.1) e.2.1) l ∧
      e.2.1 ∈ E.foldl (fun l e => insertNew (insertNew l e.1) e.2.1) l := by
  intro E
  induction E with
  | nil => intro e he; cases he
  | cons f E ih =>
      intro e he l
      rw [List.foldl_cons]
      rcases List.mem_cons.1 he with h1 | h1
      · subst h1
        exact ⟨foldl_insert_sub (mem_insertNew.2 (Or.inl (mem_insertNew.2 (Or.inr rfl)))),
               foldl_insert_sub (mem_insertNew.2 (Or.inr rfl))⟩
      · exact ih e h1 _

theorem mem_verticesOf_of_edge {E : List GEdge} {e : GEdge} (he : e ∈ E) (s : Int) :
    e.1 ∈ verticesOf E s ∧ e.2.1 ∈ verticesOf E s := by
  unfold verticesOf
  have key := foldl_insert_of_edge E e he []
  exact ⟨mem_insertNew.2 (Or.inl key.1), mem_insertNew.2 (Or.inl key.2)⟩

theorem mem_adjOf {E : List GEdge} {u x w : Int} :
    (x, w) ∈ adjOf E u ↔ (u, x, w) ∈ E := by
  unfold adjOf
  rw [List.mem_filterMap]
  constructor
  · rintro ⟨e, he, hsome⟩
    by_cases h : e.1 = u
    · rw [if_pos h] at hsome
      have h2 : e.2.1 = x ∧ e.2.2 = w := by
        have := Option.some.inj hsome
        exact ⟨congrArg Prod.fst this, congrArg Prod.snd this⟩
      have : e = (u, x, w) := by
        rcases e with ⟨a, b, c⟩
        simp only at h h2
        rw [h, h2.1, h2.2]
      exact this ▸ he
    · rw [if_neg h] at hsome; cases hsome
  · intro he
    exact ⟨(u, x, w), he, by simp⟩

theorem mem_revAdjOf {E : List GEdge} {v x w : Int} :
    (x, w) ∈ revAdjOf E v ↔ (x, v, w) ∈ E := by
  unfold revAdjOf
  rw [List.mem_filterMap]
  constructor
  · rintro ⟨e, he, hsome⟩
    by_cases h : e.2.1 = v
    · rw [if_pos h] at hsome
      have h2 : e.1 = x ∧ e.2.2 = w := by
        have := Option.some.inj hsome
        exact ⟨congrArg Prod.fst this, congrArg Prod.snd this⟩
      have : e = (x, v, w) := by
        rcases e with ⟨a, b, c⟩
        simp only at h h2
        rw [h, h2.1, h2.2]
      exact this ▸ he
    · rw [if_neg h] at hsome; cases hsome
  · intro he
    exact ⟨(x, v, w), he, by simp⟩

theorem mem_adjOf_fst {E : List GEdge} {u x : Int} :
    x ∈ (adjOf E u).map Prod.fst ↔ ∃ w, (u, x, w) ∈ E := by
  rw [List.mem_map]
  constructor
  · rintro ⟨⟨a, b⟩, hab, hx⟩
    exact ⟨b, mem_adjOf.1 ((by simpa using hx : a = x) ▸ hab)⟩
  · rintro ⟨w, hw⟩
    exact ⟨(x, w), mem_adjOf.2 hw, rfl⟩

theorem mem_revAdjOf_fst {E : List GEdge} {v x : Int} :
    x ∈ (revAdjOf E v).map Prod.fst ↔ ∃ w, (x, v, w) ∈ E := by
  rw [List.mem_map]
  constructor
  · rintro ⟨⟨a, b⟩, hab, hx⟩
    exact ⟨b, mem_revAdjOf.1 ((by simpa using hx : a = x) ▸ hab)⟩
  · rintro ⟨w, hw⟩
    exact ⟨(x, w), mem_revAdjOf.2 hw, rfl⟩

/-! ### Counting incoming edges -/

/-- Number of edges entering v whose origin lies in l. -/
def inFromN (E : List GEdge) (l : List Int) (v : Int) : Nat :=
  E.countP (fun e => decide (e.2.1 = v ∧ e.1 ∈ l))

theorem indegNat_eq_countP (E : List GEdge) (v : Int) :
    indegNat E v = E.countP (fun e => decide (e.2.1 = v)) := by
  unfold indegNat
  rw [List.countP_eq_length_filter]

theorem inFromN_le (E : List GEdge) (l : List Int) (v : Int) :
    inFromN E l v ≤ indegNat E v := by
  unfold inFromN
  rw [indegNat_eq_countP]
  exact List.countP_mono_left (fun (e : GEdge) _ h => by
    simp only [decide_eq_true_eq] at h ⊢
    exact h.1)

theorem inFromN_nil (E : List GEdge) (v : Int) : inFromN E [] v = 0 := by
  unfold inFromN
  rw [List.countP_eq_zero]
  intro e _
  simp

theorem inFromN_eq_of_closed {E : List GEdge} {l : List Int} {v : Int}
    (h : ∀ e ∈ E, e.2.1 = v → e.1 ∈ l) : inFromN E l v = indegNat E v := by
  unfold inFromN
  rw [indegNat_eq_countP]
  apply Nat.le_antisymm
  · exact List.countP_mono_left (fun (e : GEdge) _ hb => by
      simp only [decide_eq_true_eq] at hb ⊢
      exact hb.1)
  · exact List.countP_mono_left (fun (e : GEdge) he hb => by
      simp only [decide_eq_true_eq] at hb ⊢
      exact ⟨hb, h e he hb⟩)

theorem closed_of_inFromN_eq {E : List GEdge} {l : List Int} {v : Int}
    (hEq : inFromN E l v = indegNat E v) : ∀ e ∈ E, e.2.1 = v → e.1 ∈ l := by
  intro e he htgt
  unfold inFromN at hEq
  rw [indegNat_eq_countP] at hEq
  have key := @countP_eq_imp GEdge E (fun (e : GEdge) => decide (e.2.1 = v))
    (fun (e : GEdge) => decide (e.2.1 = v ∧ e.1 ∈ l))
    (fun (a : GEdge) _ hb => by
      simp only [decide_eq_true_eq] at hb ⊢
      exact hb.1)
    hEq.symm
  have := key e he (by simp [htgt])
  simp only [decide_eq_true_eq] at this
  exact this.2

theorem inFromN_lt_ex {E : List GEdge} {l : List Int} {v : Int}
    (hlt : inFromN E l v < indegNat E v) : ∃ e ∈ E, e.2.1 = v ∧ e.1 ∉ l := by
  unfold inFromN at hlt
  rw [indegNat_eq_countP] at hlt
  rcases countP_lt_ex hlt with ⟨e, he, hp, hq⟩
  simp only [decide_eq_true_eq] at hp hq
  refine ⟨e, he, hp, fun hmem => hq ⟨hp, hmem⟩⟩

theorem inFromN_append_sing {E : List GEdge} {l : List Int} {u v : Int} (hu : u ∉ l) :
    inFromN E (l ++ [u]) v =
      inFromN E l v + E.countP (fun e => decide (e.1 = u ∧ e.2.1 = v)) := by
  unfold inFromN
  apply countP_split
  · intro e _
    by_cases h1 : e.2.1 = v
    · by_cases h2 : e.1 ∈ l
      · simp [h1, h2]
      · by_cases h3 : e.1 = u <;> simp [h1, h2, h3]
    · simp [h1]
  · intro e _ hcon
    simp only [decide_eq_true_eq] at hcon
    exact hu (hcon.2.1 ▸ hcon.1.2)

theorem adjOf_countP (E : List GEdge) (u v : Int) :
    (adjOf E u).countP (fun p => decide (p.1 = v)) =
      E.countP (fun e => decide (e.1 = u ∧ e.2.1 = v)) := by
  induction E with
  | nil => rfl
  | cons e E ih =>
      unfold adjOf
      rw [List.filterMap_cons, List.countP_cons]
      by_cases h : e.1 = u
      · rw [if_pos h, List.countP_cons]
        unfold adjOf at ih
        rw [ih]
        by_cases h2 : e.2.1 = v
        · simp [h, h2]
        · simp [h, h2]
      · rw [if_neg h]
        unfold adjOf at ih
        rw [ih]
        simp [h]

/-! ### The processAdj specification -/

theorem processAdj_fst (l : List (Int × Int)) (ind : Int → Int) (v : Int) :
    (processAdj l ind).1 v = ind v - (l.countP (fun p => decide (p.1 = v)) : Int) := by
  induction l generalizing ind with
  | nil => simp [processAdj]
  | cons p rest ih =>
      rcases p with ⟨v0, w0⟩
      show (processAdj rest (upd ind v0 (ind v0 - 1))).1 v = _
      rw [ih, List.countP_cons]
      by_cases h : v0 = v
      · subst h
        simp [upd]
        omega
      · have : ¬ ((v0, w0).1 = v) := h
        simp only [this, decide_eq_true_eq, if_neg, decide_eq_false_iff_not]
        simp [upd, fun hEq : v = v0 => h hEq.symm]
        omega

theorem processAdj_mem {l : List (Int × Int)} {ind : Int → Int}
    (H : ∀ v, 0 ≤ ind v - (l.countP (fun p => decide (p.1 = v)) : Int)) :
    ∀ x, x ∈ (processAdj l ind).2 ↔
      (0 < l.countP (fun p => decide (p.1 = x)) ∧
        ind x = (l.countP (fun p => decide (p.1 = x)) : Int)) := by
  induction l generalizing ind with
  | nil =>
      intro x
      simp [processAdj]
  | cons p rest ih =>
      rcases p with ⟨v0, w0⟩
      have H1 : ∀ v, 0 ≤ upd ind v0 (ind v0 - 1) v -
          (rest.countP (fun p => decide (p.1 = v)) : Int) := by
        intro v
        have hv := H v
        rw [List.countP_cons] at hv
        by_cases h : v = v0
        · subst h
          simp only [upd, if_pos rfl]
          simp only [decide_eq_true_eq, if_pos rfl] at hv
          push_cast at hv ⊢
          omega
        · simp only [upd, if_neg h]
          have hne : ¬ ((v0, w0).1 = v) := fun hEq => h hEq.symm
          simp only [hne, decide_eq_false_iff_not, decide_eq_true_eq, if_neg] at hv
          omega
      intro x
      have hrec := ih H1 x
      show x ∈ (if ind v0 - 1 = 0 then [v0] else []) ++
        (processAdj rest (upd ind v0 (ind v0 - 1))).2 ↔ _
      rw [List.mem_append, hrec]
      by_cases hx : x = v0
      · subst hx
        have hind1 : upd ind x (ind x - 1) x = ind x - 1 := by simp [upd]
        have hc : ((x, w0) :: rest).countP (fun p => decide (p.1 = x)) =
            rest.countP (fun p => decide (p.1 = x)) + 1 := by
          rw [List.countP_cons]
          simp
        rw [hind1, hc]
        have hH := H x
        rw [hc] at hH
        constructor
        · rintro (h1 | ⟨h1, h2⟩)
          · have hd : ind x - 1 = 0 := by
              by_contra hd
              rw [if_neg hd] at h1
              cases h1
            push_cast at hH ⊢
            omega
          · push_cast at h2 ⊢
            omega
        · rintro ⟨h1, h2⟩
          by_cases hr : 0 < rest.countP (fun p => decide (p.1 = x))
          · right
            refine ⟨hr, ?_⟩
            push_cast at h2 ⊢
            omega
          · left
            have hr0 : rest.countP (fun p => decide (p.1 = x)) = 0 := by omega
            have hd : ind x - 1 = 0 := by
              rw [hr0] at h2
              push_cast at h2
              omega
            rw [if_pos hd]
            exact List.mem_singleton.2 rfl
      · have hind1 : upd ind v0 (ind v0 - 1) x = ind x := by
          simp [upd, hx]
        have hc : ((v0, w0) :: rest).countP (fun p => decide (p.1 = x)) =
            rest.countP (fun p => decide (p.1 = x)) := by
          rw [List.countP_cons]
          have hne : ¬ ((v0, w0).1 = x) := fun hEq => hx hEq.symm
          simp [hne]
        rw [hind1, hc]
        constructor
        · rintro (h1 | h1)
          · exfalso
            by_cases hd : ind v0 - 1 = 0
            · rw [if_pos hd, List.mem_singleton] at h1
              exact hx h1
            · rw [if_neg hd] at h1
              cases h1
          · exact h1
        · intro h1
          exact Or.inr h1

theorem processAdj_nodup {l : List (Int × Int)} {ind : Int → Int}
    (H : ∀ v, 0 ≤ ind v - (l.countP (fun p => decide (p.1 = v)) : Int)) :
    (processAdj l ind).2.Nodup := by
  induction l generalizing ind with
  | nil => exact List.nodup_nil
  | cons p rest ih =>
      rcases p with ⟨v0, w0⟩
      have H1 : ∀ v, 0 ≤ upd ind v0 (ind v0 - 1) v -
          (rest.countP (fun p => decide (p.1 = v)) : Int) := by
        intro v
        have := H v
        rw [List.countP_cons] at this
        by_cases h : v = v0
        · subst h
          simp only [upd, if_pos rfl]
          simp at this
          omega
        · simp only [upd, if_neg h]
          have hne : ¬ v0 = v := fun hEq => h hEq.symm
          simp [hne] at this
          omega
      show ((if ind v0 - 1 = 0 then [v0] else []) ++
        (processAdj rest (upd ind v0 (ind v0 - 1))).2).Nodup
      rw [List.nodup_append]
      refine ⟨?_, ih H1, ?_⟩
      · by_cases hd : ind v0 - 1 = 0
        · rw [if_pos hd]; exact List.nodup_singleton v0
        · rw [if_neg hd]; exact List.nodup_nil
      · intro a ha hmem
        by_cases hd : ind v0 - 1 = 0
        · rw [if_pos hd, List.mem_singleton] at ha
          subst ha
          rw [processAdj_mem H1 a] at hmem
          rcases hmem with ⟨h1, h2⟩
          rw [upd, if_pos rfl, hd] at h2
          omega
        · rw [if_neg hd] at ha
          cases ha

theorem countP_pos_ex {l : List α} {p : α → Bool} (h : 0 < l.countP p) : ∃ a ∈ l, p a := by
  by_contra hcon
  push_neg at hcon
  have : l.countP p = 0 := List.countP_eq_zero.2 (fun a ha => by simpa using hcon a ha)
  omega

/-! ### The loop invariant of Kahn's algorithm -/

/-- Invariant of the while loop of DAG._validate_dag, between iterations:
topo holds the vertices popped so far, q the pending queue, ind the current
indegree map. -/
structure KInv (E : List GEdge) (s : Int) (q : List Int) (ind : Int → Int)
    (topo : List Int) : Prop where
  nodup : (topo ++ q).Nodup
  subV : ∀ x ∈ topo ++ q, x ∈ verticesOf E s
  indSpec : ∀ v, ind v = indeg0 E v - (inFromN E topo v : Int)
  zeroIn : ∀ v ∈ verticesOf E s, ind v = 0 → v ∈ topo ∨ v ∈ q
  qClosed : ∀ v ∈ q, ∀ e ∈ E, e.2.1 = v → e.1 ∈ topo
  qZero : ∀ v ∈ q, ind v = 0
  takeClosed : ∀ n, ∀ e ∈ E, e.2.1 ∈ topo.take n → e.1 ∈ topo.take n
  noSelf : ∀ e ∈ E, e.1 = e.2.1 → e.1 ∉ topo

/-- What holds of the list returned by the loop, whether it ended on an
empty queue or covered every vertex. -/
structure KOut (E : List GEdge) (s : Int) (t : List Int) : Prop where
  nodup : t.Nodup
  subV : ∀ x ∈ t, x ∈ verticesOf E s
  takeClosed : ∀ n, ∀ e ∈ E, e.2.1 ∈ t.take n → e.1 ∈ t.take n
  noSelf : ∀ e ∈ E, e.1 = e.2.1 → e.1 ∉ t
  stuck : ∀ v ∈ verticesOf E s, v ∉ t →
    ∃ e ∈ E, e.2.1 = v ∧ e.1 ∉ t ∧ e.1 ∈ verticesOf E s

theorem kinv_topo_ind_zero {E : List GEdge} {s : Int} {q : List Int} {ind : Int → Int}
    {topo : List Int} (hI : KInv E s q ind topo) : ∀ v ∈ topo, ind v = 0 := by
  intro v hv
  have hclosed : ∀ e ∈ E, e.2.1 = v → e.1 ∈ topo := by
    intro e he htgt
    have key := hI.takeClosed topo.length e he
    rw [List.take_length topo] at key
    exact key (htgt ▸ hv)
  have hEq := inFromN_eq_of_closed hclosed
  have := hI.indSpec v
  rw [hEq] at this
  unfold indeg0 at this
  omega

theorem kinv_step {E : List GEdge} {s : Int} {u : Int} {q' : List Int} {ind : Int → Int}
    {topo : List Int} (hI : KInv E s (u :: q') ind topo) :
    KInv E s (q' ++ (processAdj (adjOf E u) ind).2) (processAdj (adjOf E u) ind).1
      (topo ++ [u]) := by
  have hreassoc : topo ++ u :: q' = (topo ++ [u]) ++ q' := by simp
  have hnodup0 : ((topo ++ [u]) ++ q').Nodup := hreassoc ▸ hI.nodup
  rcases List.nodup_append.1 hnodup0 with ⟨hA, hq', hdisA⟩
  have hu_notin : u ∉ topo := by
    intro hu
    rcases List.nodup_append.1 hA with ⟨_, _, hd⟩
    exact hd hu (List.mem_singleton.2 rfl)
  have hAdjCount : ∀ v, (adjOf E u).countP (fun p => decide (p.1 = v)) =
      E.countP (fun e => decide (e.1 = u ∧ e.2.1 = v)) := adjOf_countP E u
  have hAppend : ∀ v, inFromN E (topo ++ [u]) v =
      inFromN E topo v + E.countP (fun e => decide (e.1 = u ∧ e.2.1 = v)) :=
    fun v => inFromN_append_sing hu_notin
  have H : ∀ v, 0 ≤ ind v - ((adjOf E u).countP (fun p => decide (p.1 = v)) : Int) := by
    intro v
    rw [hAdjCount v, hI.indSpec v]
    have h1 := hAppend v
    have h2 := inFromN_le E (topo ++ [u]) v
    unfold indeg0
    omega
  have hfst : ∀ v, (processAdj (adjOf E u) ind).1 v =
      indeg0 E v - (inFromN E (topo ++ [u]) v : Int) := by
    intro v
    rw [processAdj_fst, hAdjCount v, hI.indSpec v, hAppend v]
    push_cast
    omega
  have hmem : ∀ x, x ∈ (processAdj (adjOf E u) ind).2 ↔
      (0 < E.countP (fun e => decide (e.1 = u ∧ e.2.1 = x)) ∧
        ind x = (E.countP (fun e => decide (e.1 = u ∧ e.2.1 = x)) : Int)) := by
    intro x
    rw [processAdj_mem H x, hAdjCount x]
  have htopoZero := kinv_topo_ind_zero hI
  have hnewDisj : ∀ x ∈ (processAdj (adjOf E u) ind).2, x ∉ topo ∧ x ≠ u ∧ x ∉ q' := by
    intro x hx
    rcases (hmem x).1 hx with ⟨hpos, hEq⟩
    have hne : ind x ≠ 0 := by omega
    refine ⟨fun hc => hne (htopoZero x hc), fun hc => hne (hc ▸ hI.qZero u (by simp)), ?_⟩
    intro hc
    exact hne (hI.qZero x (List.mem_cons_of_mem u hc))
  have hnewClosed : ∀ x ∈ (processAdj (adjOf E u) ind).2, ∀ e ∈ E, e.2.1 = x →
      e.1 ∈ topo ++ [u] := by
    intro x hx
    rcases (hmem x).1 hx with ⟨hpos, hEq⟩
    have h0 : (processAdj (adjOf E u) ind).1 x = 0 := by
      rw [processAdj_fst, hAdjCount x]
      omega
    rw [hfst x] at h0
    have h2 := inFromN_le E (topo ++ [u]) x
    have hNat : inFromN E (topo ++ [u]) x = indegNat E x := by
      unfold indeg0 at h0
      omega
    exact closed_of_inFromN_eq hNat
  have hnewSubV : ∀ x ∈ (processAdj (adjOf E u) ind).2, x ∈ verticesOf E s := by
    intro x hx
    rcases (hmem x).1 hx with ⟨hpos, _⟩
    rcases countP_pos_ex hpos with ⟨e, he, hp⟩
    simp only [decide_eq_true_eq] at hp
    exact hp.2 ▸ (mem_verticesOf_of_edge he s).2
  have hmemq : ∀ x ∈ topo ++ u :: q', x ∈ verticesOf E s := hI.subV
  refine ⟨?_, ?_, hfst, ?_, ?_, ?_, ?_, ?_⟩
  · -- nodup
    rw [List.nodup_append]
    refine ⟨hA, ?_, ?_⟩
    · rw [List.nodup_append]
      refine ⟨hq', processAdj_nodup H, ?_⟩
      intro a ha hb
      exact (hnewDisj a hb).2.2 ha
    · intro a ha hab
      rcases List.mem_append.1 hab with h1 | h1
      · exact hdisA ha h1
      · rcases List.mem_append.1 ha with h2 | h2
        · exact (hnewDisj a h1).1 h2
        · exact (hnewDisj a h1).2.1 (List.mem_singleton.1 h2)
  · -- subV
    intro x hx
    rcases List.mem_append.1 hx with h1 | h1
    · exact hmemq x (hreassoc ▸ List.mem_append.2 (Or.inl h1))
    · rcases List.mem_append.1 h1 with h2 | h2
      · exact hmemq x (List.mem_append.2 (Or.inr (List.mem_cons_of_mem u h2)))
      · exact hnewSubV x h2
  · -- zeroIn
    intro v hv h0
    by_cases hvz : ind v = 0
    · rcases hI.zeroIn v hv hvz with h1 | h1
      · exact Or.inl (List.mem_append.2 (Or.inl h1))
      · rcases List.mem_cons.1 h1 with h2 | h2
        · exact Or.inl (List.mem_append.2 (Or.inr (List.mem_singleton.2 h2)))
        · exact Or.inr (List.mem_append.2 (Or.inl h2))
    · right
      apply List.mem_append.2
      right
      rw [hmem v]
      have hval : (processAdj (adjOf E u) ind).1 v = ind v -
          (E.countP (fun e => decide (e.1 = u ∧ e.2.1 = v)) : Int) := by
        rw [processAdj_fst, hAdjCount v]
      rw [hval] at h0
      constructor
      · omega
      · omega
  · -- qClosed
    intro v hv e he htgt
    rcases List.mem_append.1 hv with h1 | h1
    · exact List.mem_append.2 (Or.inl (hI.qClosed v (List.mem_cons_of_mem u h1) e he htgt))
    · exact hnewClosed v h1 e he htgt
  · -- qZero
    intro v hv
    rcases List.mem_append.1 hv with h1 | h1
    · have hz := hI.qZero v (List.mem_cons_of_mem u h1)
      have hc0 : E.countP (fun e => decide (e.1 = u ∧ e.2.1 = v)) = 0 := by
        by_contra hc
        rcases countP_pos_ex (Nat.pos_of_ne_zero hc) with ⟨e, he, hp⟩
        simp only [decide_eq_true_eq] at hp
        exact hu_notin (hp.1 ▸ hI.qClosed v (List.mem_cons_of_mem u h1) e he hp.2)
      rw [processAdj_fst, hAdjCount v, hc0]
      omega
    · rcases (hmem v).1 h1 with ⟨_, hEq⟩
      rw [processAdj_fst, hAdjCount v]
      omega
  · -- takeClosed
    intro n e he htgt
    by_cases hn : n ≤ topo.length
    · rw [List.take_append_of_le_length hn] at htgt ⊢
      exact hI.takeClosed n e he htgt
    · have hlen2 : (topo ++ [u]).length ≤ n := by
        rw [List.length_append]
        simp only [List.length_singleton]
        omega
      rw [List.take_of_length_le hlen2] at htgt ⊢
      rcases List.mem_append.1 htgt with h1 | h1
      · have key := hI.takeClosed topo.length e he
        rw [List.take_length topo] at key
        exact List.mem_append.2 (Or.inl (key h1))
      · have hu2 : e.2.1 = u := List.mem_singleton.1 h1
        exact List.mem_append.2 (Or.inl (hI.qClosed u (by simp) e he hu2))
  · -- noSelf
    intro e he hself hmem2
    rcases List.mem_append.1 hmem2 with h1 | h1
    · exact hI.noSelf e he hself h1
    · have h2 : e.1 = u := List.mem_singleton.1 h1
      have h3 : e.2.1 = u := hself ▸ h2
      have := hI.qClosed u (by simp) e he h3
      exact hu_notin (h2 ▸ this)

theorem kahnLoop_out (E : List GEdge) (s : Int) :
    ∀ (n : Nat) (q : List Int) (ind : Int → Int) (topo : List Int),
      KInv E s q ind topo → n + topo.length = (verticesOf E s).length →
      KOut E s (kahnLoop E n q ind topo) := by
  intro n
  induction n with
  | zero =>
      intro q ind topo hI hlen
      show KOut E s topo
      rcases List.nodup_append.1 hI.nodup with ⟨htn, _, _⟩
      have hsub : ∀ x ∈ topo, x ∈ verticesOf E s :=
        fun x hx => hI.subV x (List.mem_append.2 (Or.inl hx))
      have hsb : topo ⊆ verticesOf E s := fun x hx => hsub x hx
      have hperm := (List.subperm_of_subset htn hsb).perm_of_length_le (by omega)
      refine ⟨htn, hsub, hI.takeClosed, hI.noSelf, ?_⟩
      intro v hv hvt
      exact absurd (hperm.mem_iff.2 hv) hvt
  | succ n ih =>
      intro q ind topo hI hlen
      cases q with
      | nil =>
          show KOut E s topo
          rcases List.nodup_append.1 hI.nodup with ⟨htn, _, _⟩
          have hsub : ∀ x ∈ topo, x ∈ verticesOf E s :=
            fun x hx => hI.subV x (List.mem_append.2 (Or.inl hx))
          refine ⟨htn, hsub, hI.takeClosed, hI.noSelf, ?_⟩
          intro v hv hvt
          have hne : ind v ≠ 0 := by
            intro h0
            rcases hI.zeroIn v hv h0 with h1 | h1
            · exact hvt h1
            · cases h1
          have hspec := hI.indSpec v
          have hle := inFromN_le E topo v
          have hlt : inFromN E topo v < indegNat E v := by
            unfold indeg0 at hspec
            omega
          rcases inFromN_lt_ex hlt with ⟨e, he, htgt, hsrc⟩
          exact ⟨e, he, htgt, hsrc, (mem_verticesOf_of_edge he s).1⟩
      | cons u q' =>
          show KOut E s (kahnLoop E n
            (q' ++ (processAdj (adjOf E u) ind).2) (processAdj (adjOf E u) ind).1 (topo ++ [u]))
          apply ih _ _ _ (kinv_step hI)
          rw [List.length_append]
          simp only [List.length_singleton]
          omega

/-- The list computed by DAG._validate_dag always satisfies KOut. -/
theorem kahnTopo_out (E : List GEdge) (s : Int) : KOut E s (kahnTopo E s) := by
  unfold kahnTopo
  apply kahnLoop_out
  · refine ⟨?_, ?_, ?_, ?_, ?_, ?_, ?_, ?_⟩
    · exact (verticesOf_nodup E s).filter _
    · intro x hx
      simp only [List.nil_append] at hx
      exact (List.mem_filter.1 hx).1
    · intro v
      rw [inFromN_nil]
      simp
    · intro v hv h0
      right
      apply List.mem_filter.2
      exact ⟨hv, by simpa using h0⟩
    · intro v hv e he htgt
      exfalso
      have h0 : indeg0 E v = 0 := by
        have key := List.mem_filter.1 (show v ∈ (verticesOf E s).filter
          (fun v => decide (indeg0 E v = 0)) from hv)
        simpa using key.2
      have : indegNat E v = 0 := by
        unfold indeg0 at h0
        omega
      rw [indegNat_eq_countP] at this
      have := List.countP_eq_zero.1 this e he
      simp [htgt] at this
    · intro v hv
      have key := List.mem_filter.1 (show v ∈ (verticesOf E s).filter
        (fun v => decide (indeg0 E v = 0)) from hv)
      have h0 : indeg0 E v = 0 := by simpa using key.2
      exact h0
    · intro n e he htgt
      simp at htgt
    · intro e he hself
      simp
  · simp

/-! ### Consequences of successful construction -/

theorem ok_topo_mem {E : List GEdge} {s : Int} (h : constructionOk E s) :
    ∀ v, v ∈ kahnTopo E s ↔ v ∈ verticesOf E s := by
  have hout := kahnTopo_out E s
  have hperm := (List.subperm_of_subset hout.nodup
    (fun x hx => hout.subV x hx)).perm_of_length_le (le_of_eq h.symm)
  exact fun v => hperm.mem_iff

theorem ok_edge_posIn {E : List GEdge} {s : Int} (h : constructionOk E s) :
    ∀ e ∈ E, posIn (kahnTopo E s) e.1 < posIn (kahnTopo E s) e.2.1 := by
  intro e he
  have hout := kahnTopo_out E s
  have hbmem : e.2.1 ∈ kahnTopo E s :=
    (ok_topo_mem h e.2.1).2 (mem_verticesOf_of_edge he s).2
  have hamem : e.1 ∈ kahnTopo E s :=
    (ok_topo_mem h e.1).2 (mem_verticesOf_of_edge he s).1
  have htake := mem_take_posIn hbmem
  have hsrc := hout.takeClosed (posIn (kahnTopo E s) e.2.1 + 1) e he htake
  have hlt := posIn_lt_of_mem_take hsrc
  have hne : e.1 ≠ e.2.1 := by
    intro hself
    exact hout.noSelf e he hself hamem
  have := posIn_ne_of_ne hamem hbmem hne
  omega

theorem ok_transGen_posIn {E : List GEdge} {s : Int} (h : constructionOk E s)
    {a b : Int} (htg : Relation.TransGen (EStep E) a b) :
    posIn (kahnTopo E s) a < posIn (kahnTopo E s) b := by
  induction htg with
  | single hstep =>
      rcases hstep with ⟨w, he⟩
      exact ok_edge_posIn h (_, _, w) he
  | tail htg2 hstep ih =>
      rename_i b c
      rcases hstep with ⟨w, he⟩
      have h2 : posIn (kahnTopo E s) b < posIn (kahnTopo E s) c :=
        ok_edge_posIn h (b, c, w) he
      omega

theorem ok_no_cycle {E : List GEdge} {s : Int} (h : constructionOk E s) : ¬ HasCycle E := by
  rintro ⟨v, htg⟩
  exact absurd (ok_transGen_posIn h htg) (lt_irrefl _)

theorem transGen_iterate {E : List GEdge} (f : Int → Int) (P : Int → Prop)
    (hf : ∀ v, P v → P (f v) ∧ EStep E (f v) v) :
    ∀ (d : Nat) (y : Int), 0 < d → (∀ k, P (f^[k] y)) → Relation.TransGen (EStep E) (f^[d] y) y := by
  intro d
  induction d with
  | zero => intro y hd; omega
  | succ d ih =>
      intro y _ hP
      by_cases hd : d = 0
      · subst hd
        have h0 := hP 0
        simp only [Function.iterate_zero, id] at h0
        have := (hf y h0).2
        simpa using Relation.TransGen.single this
      · have hstep : Relation.TransGen (EStep E) (f^[d] (f y)) (f y) := by
          apply ih (f y) (Nat.pos_of_ne_zero hd)
          intro k
          have := hP (k + 1)
          rwa [Function.iterate_succ_apply] at this
        have h0 := hP 0
        simp only [Function.iterate_zero, id] at h0
        have hlast : Relation.TransGen (EStep E) (f y) y :=
          Relation.TransGen.single (hf y h0).2
        have := Relation.TransGen.trans hstep hlast
        rwa [Eq.symm (Function.iterate_succ_apply f d y)] at this

theorem not_ok_cycle {E : List GEdge} {s : Int} (hno : ¬ constructionOk E s) : HasCycle E := by
  have hout := kahnTopo_out E s
  have hle : (kahnTopo E s).length ≤ (verticesOf E s).length :=
    (List.subperm_of_subset hout.nodup (fun x hx => hout.subV x hx)).length_le
  have hv0 : ∃ v, v ∈ verticesOf E s ∧ v ∉ kahnTopo E s := by
    by_contra hcon
    push_neg at hcon
    have hsub : verticesOf E s ⊆ kahnTopo E s := fun x hx => hcon x hx
    have := (List.subperm_of_subset (verticesOf_nodup E s) hsub).length_le
    exact hno (by omega)
  rcases hv0 with ⟨v0, hv0V, hv0T⟩
  have hstep : ∀ v, ∃ u, (v ∈ verticesOf E s ∧ v ∉ kahnTopo E s) →
      ((u ∈ verticesOf E s ∧ u ∉ kahnTopo E s) ∧ EStep E u v) := by
    intro v
    by_cases hP : v ∈ verticesOf E s ∧ v ∉ kahnTopo E s
    · rcases hout.stuck v hP.1 hP.2 with ⟨e, he, htgt, hsrcT, hsrcV⟩
      refine ⟨e.1, fun _ => ⟨⟨hsrcV, hsrcT⟩, ⟨e.2.2, ?_⟩⟩⟩
      have : e = (e.1, e.2.1, e.2.2) := rfl
      rw [htgt] at this
      exact this ▸ he
    · exact ⟨v, fun hP2 => absurd hP2 hP⟩
  choose f hf using hstep
  have hiter : ∀ n, f^[n] v0 ∈ verticesOf E s ∧ f^[n] v0 ∉ kahnTopo E s := by
    intro n
    induction n with
    | zero => simpa using ⟨hv0V, hv0T⟩
    | succ n ih =>
        rw [Function.iterate_succ_apply']
        exact (hf (f^[n] v0) ih).1
  set t : Finset Int := ((verticesOf E s).toFinset).filter (fun v => v ∉ kahnTopo E s) with ht
  have hmaps : ∀ n ∈ Finset.range (t.card + 1), f^[n] v0 ∈ t := by
    intro n _
    rw [ht, Finset.mem_filter, List.mem_toFinset]
    exact hiter n
  have hcard : t.card < (Finset.range (t.card + 1)).card := by
    rw [Finset.card_range]
    omega
  rcases Finset.exists_ne_map_eq_of_card_lt_of_maps_to hcard hmaps with
    ⟨i, hi, j, hj, hij, hEq⟩
  have key : ∀ (i j : Nat), i < j → f^[i] v0 = f^[j] v0 → HasCycle E := by
    intro i j hlt hEq2
    refine ⟨f^[i] v0, ?_⟩
    have hd : 0 < j - i := by omega
    have hiter2 : ∀ k, f^[k] (f^[i] v0) ∈ verticesOf E s ∧ f^[k] (f^[i] v0) ∉ kahnTopo E s := by
      intro k
      rw [Eq.symm (Function.iterate_add_apply f k i v0)]
      exact hiter (k + i)
    have htg := transGen_iterate f
      (fun v => v ∈ verticesOf E s ∧ v ∉ kahnTopo E s) hf (j - i) (f^[i] v0) hd hiter2
    have : f^[j - i] (f^[i] v0) = f^[i] v0 := by
      rw [Eq.symm (Function.iterate_add_apply f (j - i) i v0)]
      have : j - i + i = j := by omega
      rw [this, Eq.symm hEq2]
    rwa [this] at htg
  rcases lt_or_gt_of_ne hij with hlt | hlt
  · exact key i j hlt hEq
  · exact key j i hlt hEq.symm

/-! ### Characterizing the path-counting dynamic program -/

theorem foldl_add_apply (u : Int) :
    ∀ (l : List (Int × Int)) (m : Int → Int), (∀ p ∈ l, p.1 ≠ u) →
      ∀ x, (l.foldl (fun m1 vw => upd m1 vw.1 (m1 vw.1 + m1 u)) m) x =
        m x + (l.countP (fun p => decide (p.1 = x)) : Int) * m u := by
  intro l
  induction l with
  | nil =>
      intro m _ x
      simp
  | cons p rest ih =>
      rcases p with ⟨v, w⟩
      intro m hne x
      have hvne : v ≠ u := hne (v, w) (by simp)
      rw [List.foldl_cons]
      have hmu : (upd m v (m v + m u)) u = m u := by
        rw [upd, if_neg (fun hc => hvne hc.symm)]
      rw [ih (upd m v (m v + m u)) (fun p hp => hne p (List.mem_cons_of_mem _ hp)) x, hmu]
      rw [List.countP_cons]
      by_cases hx : v = x
      · subst hx
        have h1 : (upd m v (m v + m u)) v = m v + m u := by rw [upd, if_pos rfl]
        rw [h1]
        simp only [decide_eq_true_eq, if_pos rfl]
        push_cast
        ring
      · have h1 : (upd m v (m v + m u)) x = m x := by
          rw [upd, if_neg (fun hc => hx hc.symm)]
        rw [h1]
        have : ¬ ((v, w).1 = x) := hx
        simp only [this, decide_eq_false_iff_not, if_neg, decide_eq_true_eq]
        push_cast
        ring

theorem dpStep_apply {E : List GEdge} {u : Int} (hns : ∀ w, (u, u, w) ∉ E)
    (m : Int → Int) (x : Int) :
    dpStep E m u x = m x + (E.countP (fun e => decide (e.1 = u ∧ e.2.1 = x)) : Int) * m u := by
  unfold dpStep
  have hptarget : ∀ p ∈ adjOf E u, p.1 ≠ u := by
    rintro ⟨a, b⟩ hp hc
    have := mem_adjOf.1 hp
    simp only at hc
    subst hc
    exact hns b this
  rw [foldl_add_apply u (adjOf E u) m hptarget x, adjOf_countP]

theorem ok_no_self {E : List GEdge} {s : Int} (h : constructionOk E s) :
    ∀ u w, (u, u, w) ∉ E := by
  intro u w hmem
  exact ok_no_cycle h ⟨u, Relation.TransGen.single ⟨w, hmem⟩⟩

theorem dpRun_stable {E : List GEdge} :
    ∀ (l : List Int) (m : Int → Int) (x : Int),
      (∀ y ∈ l, ∀ w, (y, y, w) ∉ E) →
      (∀ y ∈ l, E.countP (fun e => decide (e.1 = y ∧ e.2.1 = x)) = 0) →
      l.foldl (dpStep E) m x = m x := by
  intro l
  induction l with
  | nil => intro m x _ _; rfl
  | cons y rest ih =>
      intro m x hns hcnt
      rw [List.foldl_cons]
      rw [ih (dpStep E m y) x (fun z hz => hns z (List.mem_cons_of_mem y hz))
        (fun z hz => hcnt z (List.mem_cons_of_mem y hz))]
      rw [dpStep_apply (hns y (by simp)) m x, hcnt y (by simp)]
      push_cast
      ring

theorem take_middle (P R : List Int) (u : Int) :
    (P ++ u :: R).take (P.length + 1) = P ++ [u] := by
  have h1 : P ++ u :: R = (P ++ [u]) ++ R := by simp
  have h2 : (P ++ [u]).length = P.length + 1 := by simp
  rw [h1, Eq.symm h2, List.take_append_of_le_length (le_refl _), List.take_length]

theorem dpRun_char (E : List GEdge) (m0 : Int → Int) (T : List Int)
    (hnd : T.Nodup)
    (hns : ∀ u ∈ T, ∀ w, (u, u, w) ∉ E)
    (hclosed : ∀ n, ∀ e ∈ E, e.2.1 ∈ T.take n → e.1 ∈ T.take n) :
    ∀ (R P : List Int), T = P ++ R →
      ∀ v, (R.foldl (dpStep E) (P.foldl (dpStep E) m0)) v =
        (P.foldl (dpStep E) m0) v +
          lsum E (fun e => if e.2.1 = v ∧ e.1 ∈ R then (T.foldl (dpStep E) m0) e.1 else 0) := by
  intro R
  induction R with
  | nil =>
      intro P hTP v
      have hz : lsum E (fun e => if e.2.1 = v ∧ e.1 ∈ ([] : List Int)
          then (T.foldl (dpStep E) m0) e.1 else 0) = 0 := by
        rw [@lsum_congr GEdge E _ (fun _ => 0) (fun e _ => by simp), lsum_zero]
      rw [hz]
      simp
  | cons u R' ih =>
      intro P hTP v
      have hTP' : T = (P ++ [u]) ++ R' := by rw [hTP]; simp
      have hu_mem : u ∈ T := by rw [hTP]; simp
      have hnd2 : ((P ++ [u]) ++ R').Nodup := hTP' ▸ hnd
      rcases List.nodup_append.1 hnd2 with ⟨hndA, hndR', hdisA⟩
      rcases List.nodup_append.1 hndA with ⟨hndP, _, hdisP⟩
      have hu_not_R' : u ∉ R' := fun hc => hdisA (by simp) hc
      have hu_not_P : u ∉ P := fun hc => hdisP hc (by simp)
      have hstep : dpStep E (P.foldl (dpStep E) m0) u = (P ++ [u]).foldl (dpStep E) m0 := by
        rw [List.foldl_append]
        rfl
      have hfinal_u : T.foldl (dpStep E) m0 u = (P.foldl (dpStep E) m0) u := by
        rw [hTP, List.foldl_append]
        apply dpRun_stable (u :: R') (P.foldl (dpStep E) m0) u
        · intro y hy
          apply hns
          rw [hTP]
          exact List.mem_append.2 (Or.inr hy)
        · intro y hy
          rw [List.countP_eq_zero]
          intro e he hp
          simp only [decide_eq_true_eq] at hp
          have htgt_take : e.2.1 ∈ T.take (P.length + 1) := by
            rw [hTP, take_middle]
            exact List.mem_append.2 (Or.inr (hp.2 ▸ List.mem_singleton.2 rfl))
          have hsrc_take := hclosed (P.length + 1) e he htgt_take
          rw [hTP, take_middle] at hsrc_take
          rcases List.mem_append.1 hsrc_take with hsP | hsU
          · rcases List.mem_cons.1 hy with hyu | hyR
            · exact hu_not_P (hyu ▸ hp.1 ▸ hsP)
            · exact hdisA (List.mem_append.2 (Or.inl (hp.1 ▸ hsP))) hyR
          · have hyu : e.1 = u := List.mem_singleton.1 hsU
            have : (u, u, e.2.2) ∈ E := by
              have he2 : e = (e.1, e.2.1, e.2.2) := rfl
              rw [he2] at he
              rw [hyu, hp.2] at he
              exact he
            exact hns u hu_mem e.2.2 this
      have hmPv := dpStep_apply (hns u hu_mem) (P.foldl (dpStep E) m0) v
      rw [List.foldl_cons, hstep, ih (P ++ [u]) hTP' v, Eq.symm hstep, hmPv]
      have hsplit : lsum E (fun e => if e.2.1 = v ∧ e.1 ∈ u :: R'
            then (T.foldl (dpStep E) m0) e.1 else 0) =
          lsum E (fun e => if e.1 = u ∧ e.2.1 = v then (T.foldl (dpStep E) m0) e.1 else 0) +
          lsum E (fun e => if e.2.1 = v ∧ e.1 ∈ R' then (T.foldl (dpStep E) m0) e.1 else 0) := by
        rw [Eq.symm (lsum_add E _ _)]
        apply lsum_congr
        intro e _
        by_cases h1 : e.2.1 = v
        · by_cases h2 : e.1 = u
          · simp [h1, h2, hu_not_R']
          · by_cases h3 : e.1 ∈ R' <;> simp [h1, h2, h3]
        · simp [h1]
      have hconst : lsum E (fun e => if e.1 = u ∧ e.2.1 = v
            then (T.foldl (dpStep E) m0) e.1 else 0) =
          (E.countP (fun e => decide (e.1 = u ∧ e.2.1 = v)) : Int) *
            (T.foldl (dpStep E) m0) u := by
        rw [@lsum_congr GEdge E _ (fun e => if e.1 = u ∧ e.2.1 = v
            then (T.foldl (dpStep E) m0) u else 0) ?_]
        · exact lsum_ite_count E _ _
        · intro e _
          by_cases h1 : e.1 = u ∧ e.2.1 = v
          · simp [h1.1, h1.2]
          · simp [h1]
      rw [hsplit, hconst, hfinal_u]
      ring

/-- The dynamic-programming recurrence satisfied by path_counts on a
validated graph: the count of v is the source indicator plus the sum of the
counts of the origins of all edges entering v. -/
theorem path_counts_rec {E : List GEdge} {s : Int} (h : constructionOk E s) (v : Int) :
    path_counts E s v = (if v = s then 1 else 0) +
      lsum E (fun e => if e.2.1 = v then path_counts E s e.1 else 0) := by
  have hout := kahnTopo_out E s
  have hns : ∀ u ∈ kahnTopo E s, ∀ w, (u, u, w) ∉ E := fun u _ w => ok_no_self h u w
  have key := dpRun_char E (upd (fun _ => 0) s 1) (kahnTopo E s) hout.nodup hns
    hout.takeClosed (kahnTopo E s) [] rfl v
  have hm0 : ∀ x, (([] : List Int).foldl (dpStep E) (upd (fun _ => 0) s 1)) x =
      (if x = s then 1 else 0) := by
    intro x
    rfl
  unfold path_counts
  show (kahnTopo E s).foldl (dpStep E) (upd (fun _ => 0) s 1) v = _
  have hrw : (kahnTopo E s).foldl (dpStep E) (upd (fun _ => 0) s 1) =
      (kahnTopo E s).foldl (dpStep E) (([] : List Int).foldl (dpStep E)
        (upd (fun _ => 0) s 1)) := rfl
  rw [hrw, key, hm0 v]
  congr 1
  apply lsum_congr
  intro e he
  by_cases h1 : e.2.1 = v
  · have hmemT : e.1 ∈ kahnTopo E s :=
      (ok_topo_mem h e.1).2 (mem_verticesOf_of_edge he s).1
    simp [h1, hmemT, path_counts]
  · simp [h1]

theorem path_counts_off {E : List GEdge} {s v : Int} (hv : v ∉ verticesOf E s) :
    path_counts E s v = 0 := by
  have hout := kahnTopo_out E s
  unfold path_counts
  rw [dpRun_stable (kahnTopo E s) _ v ?_ ?_]
  · have hvs : ¬ v = s := fun hc => hv (hc ▸ mem_verticesOf_src E s)
    show (if v = s then (1 : Int) else 0) = 0
    rw [if_neg hvs]
  · intro y hy w hmem
    exact hout.noSelf (y, y, w) hmem rfl hy
  · intro y _
    rw [List.countP_eq_zero]
    intro e he hp
    simp only [decide_eq_true_eq] at hp
    exact hv (hp.2 ▸ (mem_verticesOf_of_edge he s).2)

theorem path_counts_nonneg {E : List GEdge} {s : Int} (h : constructionOk E s) :
    ∀ v, 0 ≤ path_counts E s v := by
  have key : ∀ n, ∀ v, v ∈ verticesOf E s → posIn (kahnTopo E s) v = n →
      0 ≤ path_counts E s v := by
    refine strongNat _ ?_
    intro n ihn v hv hpos
    rw [path_counts_rec h v]
    have hsum : 0 ≤ lsum E (fun e => if e.2.1 = v then path_counts E s e.1 else 0) := by
      apply lsum_nonneg
      intro e he
      by_cases h1 : e.2.1 = v
      · rw [if_pos h1]
        have hlt := ok_edge_posIn h e he
        rw [h1, hpos] at hlt
        exact ihn (posIn (kahnTopo E s) e.1) hlt e.1 (mem_verticesOf_of_edge he s).1 rfl
      · rw [if_neg h1]
    by_cases h2 : v = s
    · rw [if_pos h2]; omega
    · rw [if_neg h2]; omega
  intro v
  by_cases hv : v ∈ verticesOf E s
  · exact key (posIn (kahnTopo E s) v) v hv rfl
  · rw [path_counts_off hv]

theorem reach_posIn {E : List GEdge} {s : Int} (h : constructionOk E s) {v : Int}
    (hr : Reach E s v) :
    v ∈ verticesOf E s ∧ posIn (kahnTopo E s) s ≤ posIn (kahnTopo E s) v := by
  induction hr with
  | base => exact ⟨mem_verticesOf_src E s, le_refl _⟩
  | step hr2 he ih =>
      rename_i u v2 w
      have hlt : posIn (kahnTopo E s) u < posIn (kahnTopo E s) v2 :=
        ok_edge_posIn h (u, v2, w) he
      exact ⟨(mem_verticesOf_of_edge he s).2, by omega⟩

theorem cnt_pos_of_reach {E : List GEdge} {s : Int} (h : constructionOk E s) {v : Int}
    (hr : Reach E s v) : 0 < path_counts E s v := by
  induction hr with
  | base =>
      rw [path_counts_rec h s]
      have hsum : 0 ≤ lsum E (fun e => if e.2.1 = s then path_counts E s e.1 else 0) := by
        apply lsum_nonneg
        intro e _
        by_cases h1 : e.2.1 = s
        · rw [if_pos h1]; exact path_counts_nonneg h e.1
        · rw [if_neg h1]
      rw [if_pos (Eq.refl s)]
      omega
  | step hr2 he ih =>
      rename_i u v2 w
      rw [path_counts_rec h v2]
      have hterm : path_counts E s u ≤
          lsum E (fun e => if e.2.1 = v2 then path_counts E s e.1 else 0) := by
        have hle := @lsum_mem_le GEdge E
          (fun e => if e.2.1 = v2 then path_counts E s e.1 else 0) _ he ?_
        · simpa using hle
        · intro b _
          show 0 ≤ if b.2.1 = v2 then path_counts E s b.1 else 0
          by_cases h1 : b.2.1 = v2
          · rw [if_pos h1]; exact path_counts_nonneg h b.1
          · rw [if_neg h1]
      by_cases h2 : v2 = s
      · rw [if_pos h2]; omega
      · rw [if_neg h2]; omega

theorem reach_of_cnt_pos {E : List GEdge} {s : Int} (h : constructionOk E s) :
    ∀ v, 0 < path_counts E s v → Reach E s v := by
  have key : ∀ n, ∀ v, v ∈ verticesOf E s → posIn (kahnTopo E s) v = n →
      0 < path_counts E s v → Reach E s v := by
    refine strongNat _ ?_
    intro n ihn v hv hpos hcnt
    by_cases hvs : v = s
    · exact hvs ▸ Reach.base
    · rw [path_counts_rec h v, if_neg hvs] at hcnt
      have hne : lsum E (fun e => if e.2.1 = v then path_counts E s e.1 else 0) ≠ 0 := by
        omega
      rcases lsum_ne_zero_ex hne with ⟨e, he, hterm⟩
      have h1 : e.2.1 = v := by
        by_contra hc
        rw [if_neg hc] at hterm
        exact hterm rfl
      rw [if_pos h1] at hterm
      have hsrc_pos : 0 < path_counts E s e.1 := by
        have := path_counts_nonneg h e.1
        omega
      have hlt := ok_edge_posIn h e he
      rw [h1, hpos] at hlt
      have hreach_src := ihn (posIn (kahnTopo E s) e.1) hlt e.1
        (mem_verticesOf_of_edge he s).1 rfl hsrc_pos
      have hmemE : (e.1, v, e.2.2) ∈ E := by
        have he2 : e = (e.1, e.2.1, e.2.2) := rfl
        rw [he2, h1] at he
        exact he
      exact Reach.step hreach_src hmemE
  intro v hcnt
  by_cases hv : v ∈ verticesOf E s
  · exact key (posIn (kahnTopo E s) v) v hv rfl hcnt
  · rw [path_counts_off hv] at hcnt
    omega

theorem cnt_source_one {E : List GEdge} {s : Int} (h : constructionOk E s) :
    path_counts E s s = 1 := by
  rw [path_counts_rec h s, if_pos rfl]
  have hz : lsum E (fun e => if e.2.1 = s then path_counts E s e.1 else 0) = 0 := by
    rw [@lsum_congr GEdge E _ (fun _ => 0) ?_, lsum_zero]
    intro e he
    show (if e.2.1 = s then path_counts E s e.1 else 0) = 0
    by_cases h1 : e.2.1 = s
    · rw [if_pos h1]
      by_contra hne
      have hpos : 0 < path_counts E s e.1 := by
        have := path_counts_nonneg h e.1
        omega
      have hreach := reach_of_cnt_pos h e.1 hpos
      have hle := (reach_posIn h hreach).2
      have hlt := ok_edge_posIn h e he
      rw [h1] at hlt
      omega
    · rw [if_neg h1]
  omega

theorem cnt_zero_of_unreachable {E : List GEdge} {s : Int} (h : constructionOk E s)
    {v : Int} (hr : ¬ Reach E s v) : path_counts E s v = 0 := by
  have h1 := path_counts_nonneg h v
  by_contra hne
  exact hr (reach_of_cnt_pos h v (by omega))

/-! ### Counting walks by length -/

/-- Number of edge walks from a to b with exactly n edges, decomposed along
the first edge.  Parallel edges count separately, matching the DP and the
enumeration. -/
def wcE (E : List GEdge) : Nat → Int → Int → Int
  | 0, a, b => if a = b then 1 else 0
  | n + 1, a, b => lsum E (fun e => if e.1 = a then wcE E n e.2.1 b else 0)

theorem wcE_nonneg (E : List GEdge) : ∀ (n : Nat) (a b : Int), 0 ≤ wcE E n a b := by
  intro n
  induction n with
  | zero =>
      intro a b
      show 0 ≤ if a = b then (1 : Int) else 0
      by_cases h : a = b
      · rw [if_pos h]; omega
      · rw [if_neg h]
  | succ n ih =>
      intro a b
      show 0 ≤ lsum E _
      apply lsum_nonneg
      intro e _
      show 0 ≤ if e.1 = a then wcE E n e.2.1 b else 0
      by_cases h : e.1 = a
      · rw [if_pos h]; exact ih e.2.1 b
      · rw [if_neg h]

/-- The same walk count decomposed along the last edge. -/
theorem wcE_last (E : List GEdge) :
    ∀ (n : Nat) (a b : Int), wcE E (n + 1) a b =
      lsum E (fun f => if f.2.1 = b then wcE E n a f.1 else 0) := by
  intro n
  induction n with
  | zero =>
      intro a b
      show lsum E (fun e => if e.1 = a then wcE E 0 e.2.1 b else 0) = _
      apply lsum_congr
      intro e _
      show (if e.1 = a then (if e.2.1 = b then (1 : Int) else 0) else 0) =
        (if e.2.1 = b then (if a = e.1 then (1 : Int) else 0) else 0)
      by_cases h1 : e.1 = a
      · by_cases h2 : e.2.1 = b
        · rw [if_pos h1, if_pos h2, if_pos h2, if_pos h1.symm]
        · rw [if_pos h1, if_neg h2, if_neg h2]
      · by_cases h2 : e.2.1 = b
        · rw [if_neg h1, if_pos h2, if_neg (fun hc : a = e.1 => h1 hc.symm)]
        · rw [if_neg h1, if_neg h2]
  | succ n ih =>
      intro a b
      show lsum E (fun e => if e.1 = a then wcE E (n + 1) e.2.1 b else 0) = _
      have step1 : lsum E (fun e => if e.1 = a then wcE E (n + 1) e.2.1 b else 0) =
          lsum E (fun e => lsum E (fun f => if e.1 = a then
            (if f.2.1 = b then wcE E n e.2.1 f.1 else 0) else 0)) := by
        apply lsum_congr
        intro e _
        rw [ih e.2.1 b]
        exact ite_lsum _ E _
      rw [step1, lsum_swap]
      apply lsum_congr
      intro f _
      show lsum E (fun e => if e.1 = a then
          (if f.2.1 = b then wcE E n e.2.1 f.1 else 0) else 0) =
        (if f.2.1 = b then wcE E (n + 1) a f.1 else 0)
      have step2 : lsum E (fun e => if e.1 = a then
          (if f.2.1 = b then wcE E n e.2.1 f.1 else 0) else 0) =
          lsum E (fun e => if f.2.1 = b then
            (if e.1 = a then wcE E n e.2.1 f.1 else 0) else 0) := by
        apply lsum_congr
        intro e _
        by_cases h1 : e.1 = a <;> by_cases h2 : f.2.1 = b <;> simp [h1, h2]
      rw [step2, Eq.symm (ite_lsum _ E _)]
      by_cases h2 : f.2.1 = b
      · rw [if_pos h2, if_pos h2]
        rfl
      · rw [if_neg h2, if_neg h2]

theorem wcE_ne_zero_posIn {E : List GEdge} {s : Int} (h : constructionOk E s) :
    ∀ (n : Nat) (a b : Int), a ∈ verticesOf E s → wcE E n a b ≠ 0 →
      b ∈ verticesOf E s ∧
        posIn (kahnTopo E s) a + n ≤ posIn (kahnTopo E s) b := by
  intro n
  induction n with
  | zero =>
      intro a b ha hne
      have hab : a = b := by
        by_contra hc
        exact hne (if_neg hc)
      subst hab
      exact ⟨ha, by omega⟩
  | succ n ih =>
      intro a b ha hne
      rcases lsum_ne_zero_ex hne with ⟨e, he, hterm⟩
      have h1 : e.1 = a := by
        by_contra hc
        exact hterm (if_neg hc)
      rw [if_pos h1] at hterm
      have hchild := ih e.2.1 b (mem_verticesOf_of_edge he s).2 hterm
      have hedge := ok_edge_posIn h e he
      rw [h1] at hedge
      exact ⟨hchild.1, by omega⟩

/-- Total number of walks from a to b with fewer than N edges. -/
def wcSum (E : List GEdge) (N : Nat) (a b : Int) : Int :=
  lsum (List.range N) (fun k => wcE E k a b)

theorem wcSum_succ (E : List GEdge) (N : Nat) (a b : Int) :
    wcSum E (N + 1) a b = wcSum E N a b + wcE E N a b := by
  unfold wcSum
  rw [List.range_succ, lsum_append]
  simp [lsum]

theorem wcSum_succ_front (E : List GEdge) (N : Nat) (a b : Int) :
    wcSum E (N + 1) a b = (if a = b then 1 else 0) +
      lsum (List.range N) (fun k => wcE E (k + 1) a b) := by
  unfold wcSum
  rw [List.range_succ_eq_map N]
  rw [lsum_cons, lsum_map]
  rfl

theorem verts_len_pos {E : List GEdge} (s : Int) : 0 < (verticesOf E s).length := by
  have := mem_verticesOf_src E s
  cases hl : verticesOf E s with
  | nil => rw [hl] at this; cases this
  | cons a l => simp

/-- On a validated graph the DP value at v is the total number of walks from
the source to v (all walks have fewer than |V| edges). -/
theorem path_counts_eq_wcSum {E : List GEdge} {s : Int} (h : constructionOk E s) :
    ∀ v, path_counts E s v = wcSum E (kahnTopo E s).length s v := by
  have hN : (kahnTopo E s).length = (verticesOf E s).length := h
  have hNpos : 0 < (kahnTopo E s).length := by
    rw [hN]; exact verts_len_pos s
  obtain ⟨M, hM⟩ : ∃ M, (kahnTopo E s).length = M + 1 :=
    ⟨(kahnTopo E s).length - 1, by omega⟩
  have hoff : ∀ v, v ∉ verticesOf E s → wcSum E (kahnTopo E s).length s v = 0 := by
    intro v hv
    unfold wcSum
    rw [@lsum_congr Nat (List.range (kahnTopo E s).length) _ (fun _ => 0) ?_, lsum_zero]
    intro k _
    show wcE E k s v = 0
    by_contra hne
    exact hv (wcE_ne_zero_posIn h k s v (mem_verticesOf_src E s) hne).1
  have key : ∀ n, ∀ v, v ∈ verticesOf E s → posIn (kahnTopo E s) v = n →
      path_counts E s v = wcSum E (kahnTopo E s).length s v := by
    refine strongNat _ ?_
    intro n ihn v hv hpos
    have hvT : v ∈ kahnTopo E s := (ok_topo_mem h v).2 hv
    have hposv : posIn (kahnTopo E s) v < (kahnTopo E s).length := posIn_lt hvT
    rw [path_counts_rec h v, hM, wcSum_succ_front]
    have stepA : lsum (List.range M) (fun k => wcE E (k + 1) s v) =
        lsum E (fun f => if f.2.1 = v then wcSum E M s f.1 else 0) := by
      have h1 : lsum (List.range M) (fun k => wcE E (k + 1) s v) =
          lsum (List.range M) (fun k => lsum E
            (fun f => if f.2.1 = v then wcE E k s f.1 else 0)) := by
        apply lsum_congr
        intro k _
        exact wcE_last E k s v
      rw [h1, lsum_swap]
      apply lsum_congr
      intro f _
      rw [Eq.symm (ite_lsum _ (List.range M) _)]
      rfl
    rw [stepA]
    have stepD : lsum E (fun f => if f.2.1 = v then wcSum E M s f.1 else 0) =
        lsum E (fun f => if f.2.1 = v then path_counts E s f.1 else 0) := by
      apply lsum_congr
      intro f hf
      by_cases h1 : f.2.1 = v
      · rw [if_pos h1, if_pos h1]
        have hsrc_mem : f.1 ∈ verticesOf E s := (mem_verticesOf_of_edge hf s).1
        have hsrcT : f.1 ∈ kahnTopo E s := (ok_topo_mem h f.1).2 hsrc_mem
        have hpossrc : posIn (kahnTopo E s) f.1 < (kahnTopo E s).length := posIn_lt hsrcT
        have hedge := ok_edge_posIn h f hf
        rw [h1] at hedge
        have hwceM : wcE E M s f.1 = 0 := by
          by_contra hne
          have hkey := wcE_ne_zero_posIn h M s f.1 (mem_verticesOf_src E s) hne
          omega
        have hsum : wcSum E M s f.1 = wcSum E (kahnTopo E s).length s f.1 := by
          rw [hM, wcSum_succ, hwceM]
          omega
        rw [hsum]
        exact (ihn (posIn (kahnTopo E s) f.1) (by omega) f.1 hsrc_mem rfl).symm
      · rw [if_neg h1, if_neg h1]
    rw [stepD]
    have hflip : (if v = s then (1 : Int) else 0) = (if s = v then (1 : Int) else 0) := by
      by_cases h1 : v = s
      · rw [if_pos h1, if_pos h1.symm]
      · rw [if_neg h1, if_neg (fun hc : s = v => h1 hc.symm)]
    rw [hflip]
  intro v
  by_cases hv : v ∈ verticesOf E s
  · exact key (posIn (kahnTopo E s) v) v hv rfl
  · rw [path_counts_off hv, hoff v hv]

theorem catLists_length_int : ∀ (ls : List (List α)),
    ((catLists ls).length : Int) = lsum ls (fun l => (l.length : Int)) := by
  intro ls
  induction ls with
  | nil => rfl
  | cons l ls ih =>
      show (((l ++ catLists ls).length : Nat) : Int) = _
      rw [List.length_append, lsum_cons, Eq.symm ih]
      push_cast
      ring

theorem lsum_adjOf (E : List GEdge) (u : Int) (g : Int → Int) :
    lsum E (fun e => if e.1 = u then g e.2.1 else 0) =
      lsum (adjOf E u) (fun vw => g vw.1) := by
  induction E with
  | nil => rfl
  | cons e E ih =>
      rw [lsum_cons]
      unfold adjOf
      by_cases h : e.1 = u
      · rw [List.filterMap_cons_some (by rw [if_pos h] : _ = some (e.2.1, e.2.2)), if_pos h,
          lsum_cons]
        unfold adjOf at ih
        rw [ih]
      · rw [List.filterMap_cons_none (by rw [if_neg h] : _ = none), if_neg h]
        unfold adjOf at ih
        rw [ih]
        omega

theorem wcSum_self {E : List GEdge} {s : Int} (h : constructionOk E s) {t : Int}
    (ht : t ∈ verticesOf E s) : wcSum E (kahnTopo E s).length t t = 1 := by
  have hNpos : 0 < (kahnTopo E s).length := by
    have := h
    rw [this]; exact verts_len_pos s
  obtain ⟨M, hM⟩ : ∃ M, (kahnTopo E s).length = M + 1 :=
    ⟨(kahnTopo E s).length - 1, by omega⟩
  rw [hM, wcSum_succ_front, if_pos rfl]
  have hz : lsum (List.range M) (fun k => wcE E (k + 1) t t) = 0 := by
    rw [@lsum_congr Nat (List.range M) _ (fun _ => 0) ?_, lsum_zero]
    intro k _
    show wcE E (k + 1) t t = 0
    by_contra hne
    have := (wcE_ne_zero_posIn h (k + 1) t t ht hne).2
    omega
  rw [hz]
  omega

theorem dfsPaths_length {E : List GEdge} {s : Int} (h : constructionOk E s) (t : Int) :
    ∀ (f : Nat) (u : Int), u ∈ verticesOf E s →
      (kahnTopo E s).length - posIn (kahnTopo E s) u ≤ f →
      ∀ (cost : Int) (p : List Int),
        ((dfsPaths E t f u cost p).length : Int) =
          wcSum E (kahnTopo E s).length u t := by
  have hNpos : 0 < (kahnTopo E s).length := by
    have h2 : (kahnTopo E s).length = (verticesOf E s).length := h
    rw [h2]; exact verts_len_pos s
  obtain ⟨M, hM⟩ : ∃ M, (kahnTopo E s).length = M + 1 :=
    ⟨(kahnTopo E s).length - 1, by omega⟩
  intro f
  induction f with
  | zero =>
      intro u hu hf _ _
      exfalso
      have hmem : u ∈ kahnTopo E s := (ok_topo_mem h u).2 hu
      have := posIn_lt hmem
      omega
  | succ f ih =>
      intro u hu hf cost p
      by_cases hut : u = t
      · subst hut
        show ((if u = u then [(p, cost)] else
          catLists ((adjOf E u).map (fun vw =>
            dfsPaths E u f vw.1 (cost + vw.2) (p ++ [vw.1])))).length : Int) = _
        rw [if_pos rfl, wcSum_self h hu]
        rfl
      · show ((if u = t then [(p, cost)] else
          catLists ((adjOf E u).map (fun vw =>
            dfsPaths E t f vw.1 (cost + vw.2) (p ++ [vw.1])))).length : Int) = _
        rw [if_neg hut, catLists_length_int, lsum_map]
        have hchild : ∀ vw ∈ adjOf E u,
            ((dfsPaths E t f vw.1 (cost + vw.2) (p ++ [vw.1])).length : Int) =
              wcSum E (kahnTopo E s).length vw.1 t := by
          rintro ⟨x, w⟩ hvw
          have hedge : (u, x, w) ∈ E := mem_adjOf.1 hvw
          have hx_mem : x ∈ verticesOf E s := (mem_verticesOf_of_edge hedge s).2
          have hposx := ok_edge_posIn h (u, x, w) hedge
          simp only at hposx
          apply ih x hx_mem ?_ (cost + w) (p ++ [x])
          omega
        rw [lsum_congr hchild, hM, wcSum_succ_front, if_neg hut]
        have step1 : lsum (List.range M) (fun k => wcE E (k + 1) u t) =
            lsum E (fun e => if e.1 = u then wcSum E M e.2.1 t else 0) := by
          have h1 : lsum (List.range M) (fun k => wcE E (k + 1) u t) =
              lsum (List.range M) (fun k =>
                lsum E (fun e => if e.1 = u then wcE E k e.2.1 t else 0)) :=
            lsum_congr (fun k _ => rfl)
          rw [h1, lsum_swap]
          apply lsum_congr
          intro e _
          rw [Eq.symm (ite_lsum _ (List.range M) _)]
          rfl
        have step2 : lsum E (fun e => if e.1 = u then wcSum E M e.2.1 t else 0) =
            lsum E (fun e => if e.1 = u then
              wcSum E (kahnTopo E s).length e.2.1 t else 0) := by
          apply lsum_congr
          intro e he
          by_cases h1 : e.1 = u
          · rw [if_pos h1, if_pos h1]
            have hx_mem : e.2.1 ∈ verticesOf E s := (mem_verticesOf_of_edge he s).2
            have hxT : e.2.1 ∈ kahnTopo E s := (ok_topo_mem h e.2.1).2 hx_mem
            have hposx := posIn_lt hxT
            have hedge := ok_edge_posIn h e he
            rw [h1] at hedge
            have huT : u ∈ kahnTopo E s := (ok_topo_mem h u).2 hu
            have hposu := posIn_lt huT
            have hwceM : wcE E M e.2.1 t = 0 := by
              by_contra hne
              have hkey := wcE_ne_zero_posIn h M e.2.1 t hx_mem hne
              have htT : t ∈ kahnTopo E s := (ok_topo_mem h t).2 hkey.1
              have := posIn_lt htT
              omega
            rw [hM, wcSum_succ, hwceM]
            omega
          · rw [if_neg h1, if_neg h1]
        have step3 : lsum E (fun e => if e.1 = u then
            wcSum E (kahnTopo E s).length e.2.1 t else 0) =
            lsum (adjOf E u) (fun vw => wcSum E (kahnTopo E s).length vw.1 t) :=
          lsum_adjOf E u (fun x => wcSum E (kahnTopo E s).length x t)
        rw [step1, step2, step3, Eq.symm hM]
        omega

theorem enumerate_length {E : List GEdge} {s : Int} (h : constructionOk E s) (t : Int) :
    ((enumerate_paths E s t).length : Int) = path_counts E s t := by
  unfold enumerate_paths
  have hsv : s ∈ verticesOf E s := mem_verticesOf_src E s
  have hsT : s ∈ kahnTopo E s := (ok_topo_mem h s).2 hsv
  have hN : (kahnTopo E s).length = (verticesOf E s).length := h
  have key := dfsPaths_length h t (verticesOf E s).length s hsv (by omega) 0 [s]
  rw [key, Eq.symm (path_counts_eq_wcSum h t)]

/-- On a validated graph the dfs result does not depend on the fuel, as soon
as the fuel covers the longest possible walk from u: the recursion of the
source terminates and any sufficient fuel computes its value. -/
theorem dfsPaths_fuel_stable {E : List GEdge} {s : Int} (h : constructionOk E s) (t : Int) :
    ∀ (f1 f2 : Nat) (u : Int), u ∈ verticesOf E s →
      (kahnTopo E s).length - posIn (kahnTopo E s) u ≤ f1 →
      (kahnTopo E s).length - posIn (kahnTopo E s) u ≤ f2 →
      ∀ (cost : Int) (p : List Int),
        dfsPaths E t f1 u cost p = dfsPaths E t f2 u cost p := by
  intro f1
  induction f1 with
  | zero =>
      intro f2 u hu h1 h2 _ _
      exfalso
      have hmem : u ∈ kahnTopo E s := (ok_topo_mem h u).2 hu
      have := posIn_lt hmem
      omega
  | succ f1 ih =>
      intro f2 u hu h1 h2 cost p
      cases f2 with
      | zero =>
          exfalso
          have hmem : u ∈ kahnTopo E s := (ok_topo_mem h u).2 hu
          have := posIn_lt hmem
          omega
      | succ f2 =>
          show (if u = t then [(p, cost)] else
              catLists ((adjOf E u).map (fun vw =>
                dfsPaths E t f1 vw.1 (cost + vw.2) (p ++ [vw.1])))) =
            (if u = t then [(p, cost)] else
              catLists ((adjOf E u).map (fun vw =>
                dfsPaths E t f2 vw.1 (cost + vw.2) (p ++ [vw.1]))))
          by_cases hut : u = t
          · rw [if_pos hut, if_pos hut]
          · rw [if_neg hut, if_neg hut]
            congr 1
            apply List.map_congr_left
            rintro ⟨x, w⟩ hvw
            have hedge : (u, x, w) ∈ E := mem_adjOf.1 hvw
            have hx_mem : x ∈ verticesOf E s := (mem_verticesOf_of_edge hedge s).2
            have hposx := ok_edge_posIn h (u, x, w) hedge
            simp only at hposx
            exact ih f2 x hx_mem (by omega) (by omega) (cost + w) (p ++ [x])

/-! ### The greedy loop of the insertion proposal -/

/-- Sum of the strictly positive counts in a candidate list. -/
def posSum (l : List (Int × Int)) : Int :=
  lsum l (fun p => if 0 < p.2 then p.2 else 0)

theorem posSum_nonneg (l : List (Int × Int)) : 0 ≤ posSum l := by
  apply lsum_nonneg
  intro p _
  show 0 ≤ if 0 < p.2 then p.2 else 0
  by_cases hp : 0 < p.2
  · rw [if_pos hp]; omega
  · rw [if_neg hp]

theorem posSum_cons (u c : Int) (l : List (Int × Int)) :
    posSum ((u, c) :: l) = (if 0 < c then c else 0) + posSum l := lsum_cons _ _ _

theorem greedyLoop_total :
    ∀ (l : List (Int × Int)) (maxPaths total : Int) (chosen : List Int),
      (greedyLoop l maxPaths total chosen).1 ≤ total + posSum l ∧
      ((greedyLoop l maxPaths total chosen).1 ≤ maxPaths →
        (greedyLoop l maxPaths total chosen).1 = total + posSum l) := by
  intro l
  induction l with
  | nil =>
      intro maxPaths total chosen
      show total ≤ total + posSum [] ∧ (total ≤ maxPaths → total = total + posSum [])
      unfold posSum
      rw [lsum_nil]
      exact ⟨by omega, fun _ => by omega⟩
  | cons p rest ih =>
      rcases p with ⟨u, c⟩
      intro maxPaths total chosen
      have hunfold : greedyLoop ((u, c) :: rest) maxPaths total chosen =
          (if c ≤ 0 then greedyLoop rest maxPaths total chosen
           else if maxPaths < total + c then (total + c, chosen ++ [u])
           else greedyLoop rest maxPaths (total + c) (chosen ++ [u])) := rfl
      rw [hunfold, posSum_cons]
      by_cases hc : c ≤ 0
      · rw [if_pos hc, if_neg (by omega : ¬ 0 < c)]
        have h1 := (ih maxPaths total chosen).1
        constructor
        · omega
        · intro hle
          have := (ih maxPaths total chosen).2 hle
          omega
      · rw [if_neg hc, if_pos (by omega : 0 < c)]
        by_cases hbreak : maxPaths < total + c
        · rw [if_pos hbreak]
          have := posSum_nonneg rest
          exact ⟨by omega, fun hle => by omega⟩
        · rw [if_neg hbreak]
          have h1 := (ih maxPaths (total + c) (chosen ++ [u])).1
          constructor
          · omega
          · intro hle
            have := (ih maxPaths (total + c) (chosen ++ [u])).2 hle
            omega

theorem greedyLoop_chosen (cnt : Int → Int) :
    ∀ (l : List (Int × Int)) (maxPaths total : Int) (chosen : List Int),
      (∀ p ∈ l, p.2 = cnt p.1) →
      ∃ picked, (greedyLoop l maxPaths total chosen).2 = chosen ++ picked ∧
        List.Sublist picked (l.map Prod.fst) ∧
        (∀ u ∈ picked, ∃ c, (u, c) ∈ l ∧ 0 < c) ∧
        (greedyLoop l maxPaths total chosen).1 = total + lsum picked cnt := by
  intro l
  induction l with
  | nil =>
      intro maxPaths total chosen _
      refine ⟨[], ?_, List.nil_sublist _, by simp, ?_⟩
      · show chosen = chosen ++ []
        rw [List.append_nil]
      · show total = total + lsum [] cnt
        rw [lsum_nil]
        omega
  | cons p rest ih =>
      rcases p with ⟨u, c⟩
      intro maxPaths total chosen hcnt
      have hunfold : greedyLoop ((u, c) :: rest) maxPaths total chosen =
          (if c ≤ 0 then greedyLoop rest maxPaths total chosen
           else if maxPaths < total + c then (total + c, chosen ++ [u])
           else greedyLoop rest maxPaths (total + c) (chosen ++ [u])) := rfl
      rw [hunfold]
      by_cases hc : c ≤ 0
      · rw [if_pos hc]
        rcases ih maxPaths total chosen (fun q hq => hcnt q (List.mem_cons_of_mem _ hq)) with
          ⟨picked, hpk1, hpk2, hpk3, hpk4⟩
        refine ⟨picked, hpk1, ?_, ?_, ?_⟩
        · exact hpk2.cons _
        · intro x hx
          rcases hpk3 x hx with ⟨cx, hcx1, hcx2⟩
          exact ⟨cx, List.mem_cons_of_mem _ hcx1, hcx2⟩
        · exact hpk4
      · rw [if_neg hc]
        by_cases hbreak : maxPaths < total + c
        · rw [if_pos hbreak]
          refine ⟨[u], rfl, ?_, ?_, ?_⟩
          · show List.Sublist [u] (u :: rest.map Prod.fst)
            exact (List.nil_sublist _).cons₂ u
          · intro x hx
            rw [List.mem_singleton] at hx
            exact ⟨c, by rw [hx]; exact List.mem_cons_self _ _, by omega⟩
          · show total + c = total + lsum [u] cnt
            have hcu : c = cnt u := hcnt (u, c) (List.mem_cons_self _ _)
            rw [lsum_cons, lsum_nil]
            omega
        · rw [if_neg hbreak]
          rcases ih maxPaths (total + c) (chosen ++ [u])
            (fun q hq => hcnt q (List.mem_cons_of_mem _ hq)) with
            ⟨picked, hpk1, hpk2, hpk3, hpk4⟩
          refine ⟨u :: picked, ?_, ?_, ?_, ?_⟩
          · rw [hpk1]
            simp
          · exact hpk2.cons₂ u
          · intro x hx
            rcases List.mem_cons.1 hx with hx1 | hx1
            · exact ⟨c, by rw [hx1]; exact List.mem_cons_self _ _, by omega⟩
            · rcases hpk3 x hx1 with ⟨cx, hcx1, hcx2⟩
              exact ⟨cx, List.mem_cons_of_mem _ hcx1, hcx2⟩
          · rw [hpk4, lsum_cons]
            have hcu : c = cnt u := hcnt (u, c) (List.mem_cons_self _ _)
            omega

theorem lsum_perm {l l' : List α} (h : List.Perm l l') (f : α → Int) :
    lsum l f = lsum l' f := (h.map f).sum_eq

theorem foldl_max_facts : ∀ (l : List Int) (b : Int),
    b ≤ l.foldl max b ∧ ∀ x ∈ l, x ≤ l.foldl max b := by
  intro l
  induction l with
  | nil => intro b; exact ⟨le_refl b, by simp⟩
  | cons y ys ih =>
      intro b
      rw [List.foldl_cons]
      rcases ih (max b y) with ⟨h1, h2⟩
      refine ⟨le_trans (le_max_left b y) h1, ?_⟩
      intro x hx
      rcases List.mem_cons.1 hx with hx1 | hx1
      · exact le_trans (hx1 ▸ le_max_right b y) h1
      · exact h2 x hx1

theorem le_listMax {l : List Int} {x : Int} (hx : x ∈ l) : x ≤ listMax l := by
  cases l with
  | nil => cases hx
  | cons y ys =>
      show x ≤ ys.foldl max y
      rcases List.mem_cons.1 hx with h1 | h1
      · exact h1 ▸ (foldl_max_facts ys y).1
      · exact (foldl_max_facts ys y).2 x h1

theorem mem_neighbors_of {E : List GEdge} {v u : Int} :
    u ∈ neighbors_of E v ↔ (¬ u = v) ∧ ∃ w, (u, v, w) ∈ E ∨ (v, u, w) ∈ E := by
  unfold neighbors_of
  rw [List.mem_filter]
  constructor
  · rintro ⟨hmem, hdec⟩
    refine ⟨by simpa using hdec, ?_⟩
    rcases List.mem_append.1 hmem with h1 | h1
    · rcases mem_revAdjOf_fst.1 h1 with ⟨w, hw⟩
      exact ⟨w, Or.inl hw⟩
    · rcases mem_adjOf_fst.1 h1 with ⟨w, hw⟩
      exact ⟨w, Or.inr hw⟩
  · rintro ⟨hne, w, hw | hw⟩
    · exact ⟨List.mem_append.2 (Or.inl (mem_revAdjOf_fst.2 ⟨w, hw⟩)), by simpa using hne⟩
    · exact ⟨List.mem_append.2 (Or.inr (mem_adjOf_fst.2 ⟨w, hw⟩)), by simpa using hne⟩

/-- The candidate list of propose_vprime_insertion. -/
def candsOf (E : List GEdge) (s : Int) (v : Int) : List (Int × Int) :=
  ((verticesOf E s).filter (fun u => decide (¬ u ∈ neighbors_of E v))).map
    (fun u => (u, path_counts E s u))

theorem propose_unfold (E : List GEdge) (s : Int) (v : Int) (w : Int) :
    propose_vprime_insertion E s v w =
      (if (greedyLoop (sortDesc (candsOf E s v)) (path_counts E s v) 0 []).1 ≤
          path_counts E s v
       then (false, [])
       else (true, (greedyLoop (sortDesc (candsOf E s v)) (path_counts E s v) 0 []).2.map
          (fun u => (u, listMax (verticesOf E s) + 1, w)))) := rfl

theorem candsOf_map_fst (E : List GEdge) (s : Int) (v : Int) :
    (candsOf E s v).map Prod.fst =
      (verticesOf E s).filter (fun u => decide (¬ u ∈ neighbors_of E v)) := by
  unfold candsOf
  rw [List.map_map]
  exact List.map_id _

theorem candsOf_cnt {E : List GEdge} {s v : Int} :
    ∀ p ∈ candsOf E s v, p.2 = path_counts E s p.1 := by
  intro p hp
  rcases List.mem_map.1 hp with ⟨u, _, hu2⟩
  rw [Eq.symm hu2]

theorem mem_candsOf {E : List GEdge} {s v : Int} {p : Int × Int} :
    p ∈ candsOf E s v ↔
      p.1 ∈ verticesOf E s ∧ p.1 ∉ neighbors_of E v ∧ p.2 = path_counts E s p.1 := by
  unfold candsOf
  constructor
  · intro hp
    rcases List.mem_map.1 hp with ⟨u, hu1, hu2⟩
    rcases List.mem_filter.1 hu1 with ⟨hu3, hu4⟩
    subst hu2
    exact ⟨hu3, by simpa using hu4, rfl⟩
  · rintro ⟨h1, h2, h3⟩
    apply List.mem_map.2
    refine ⟨p.1, List.mem_filter.2 ⟨h1, by simpa using h2⟩, ?_⟩
    rw [Eq.symm h3]

/-- The sum named in the spec: counts of all non-neighbor vertices with
strictly positive count. -/
theorem sortDesc_perm (l : List (Int × Int)) : List.Perm (sortDesc l) l :=
  List.perm_insertionSort descRel l

theorem lsum_filter (l : List α) (q : α → Bool) (f : α → Int) :
    lsum (l.filter q) f = lsum l (fun a => if q a = true then f a else 0) :=
  filterMapSum l q f

theorem posSum_cands (E : List GEdge) (s : Int) (v : Int) :
    posSum (sortDesc (candsOf E s v)) =
      (((verticesOf E s).filter (fun u =>
          decide (u ∉ neighbors_of E v ∧ 0 < path_counts E s u))).map
        (path_counts E s)).sum := by
  unfold posSum
  rw [lsum_perm (sortDesc_perm (candsOf E s v)) _]
  unfold candsOf
  rw [lsum_map, lsum_filter, filterMapSum]
  apply lsum_congr
  intro u _
  by_cases h1 : u ∈ neighbors_of E v
  · simp [h1]
  · by_cases h2 : 0 < path_counts E s u <;> simp [h1, h2]

/-! ### The verified claims -/

/-- The edge list of the first test fixture (the enunciado graph), source 0. -/
def fixEdges : List GEdge :=
  [(0, 1, 2), (0, 2, 4), (0, 4, -2), (0, 5, 1), (0, 6, 5), (2, 3, 3), (2, 4, 2), (3, 8, -4),
   (4, 3, 5), (4, 8, 1), (4, 7, 2), (5, 7, -1), (5, 8, -3), (6, 7, 6), (7, 8, 2)]

/-- The two-vertex cyclic edge list used by the cycle-detection test. -/
def cycEdges : List GEdge := [(0, 1, 1), (1, 0, 1)]

/-- C1: on every successfully constructed graph and every vertex t of the
graph, enumerate_paths(t) has exactly path_counts()[t] entries, and the list
is empty exactly when t is unreachable from the source. -/
theorem claim1_enumeration_count (E : List GEdge) (s : Int) (h : constructionOk E s)
    (t : Int) (ht : t ∈ verticesOf E s) :
    ((enumerate_paths E s t).length : Int) = path_counts E s t ∧
    (enumerate_paths E s t = [] ↔ ¬ Reach E s t) := by
  have hlen := enumerate_length h t
  refine ⟨hlen, ?_, ?_⟩
  · intro hemp hreach
    have hpos := cnt_pos_of_reach h hreach
    rw [Eq.symm hlen, hemp] at hpos
    simp at hpos
  · intro hnr
    have hz := cnt_zero_of_unreachable h hnr
    rw [Eq.symm hlen] at hz
    have hlen0 : (enumerate_paths E s t).length = 0 := by exact_mod_cast hz
    exact List.length_eq_zero.1 hlen0

theorem claim1_witness :
    constructionOk fixEdges 0 ∧ (8 : Int) ∈ verticesOf fixEdges 0 ∧
      (((enumerate_paths fixEdges 0 8).length : Int) = path_counts fixEdges 0 8 ∧
        (enumerate_paths fixEdges 0 8 = [] ↔ ¬ Reach fixEdges 0 8)) :=
  ⟨by decide, by decide, claim1_enumeration_count fixEdges 0 (by decide) 8 (by decide)⟩

/-- C2: on every successfully constructed graph, for every non-source vertex
v with at least one incoming edge, path_counts()[v] is the sum of
path_counts()[u] over every incoming edge (u, v, w), parallel edges counted
with multiplicity. -/
theorem claim2_dp_recurrence (E : List GEdge) (s : Int) (h : constructionOk E s)
    (v : Int) (hv : v ≠ s) (hin : ∃ e ∈ E, e.2.1 = v) :
    path_counts E s v =
      ((E.filter (fun e => decide (e.2.1 = v))).map (fun e => path_counts E s e.1)).sum := by
  have hrec := path_counts_rec h v
  rw [if_neg hv] at hrec
  rw [filterMapSum, hrec]
  have hcongr : lsum E (fun e => if e.2.1 = v then path_counts E s e.1 else 0) =
      lsum E (fun e => if decide (e.2.1 = v) = true then path_counts E s e.1 else 0) := by
    apply lsum_congr
    intro e _
    by_cases h1 : e.2.1 = v <;> simp [h1]
  rw [hcongr]
  omega

theorem claim2_witness :
    constructionOk fixEdges 0 ∧ (8 : Int) ≠ 0 ∧ (∃ e ∈ fixEdges, e.2.1 = 8) ∧
      path_counts fixEdges 0 8 =
        ((fixEdges.filter (fun e => decide (e.2.1 = 8))).map
          (fun e => path_counts fixEdges 0 e.1)).sum :=
  ⟨by decide, by decide, ⟨(3, 8, -4), by decide, rfl⟩,
    claim2_dp_recurrence fixEdges 0 (by decide) 8 (by decide)
      ⟨(3, 8, -4), by decide, rfl⟩⟩

/-- C3: on every successfully constructed graph the source has path count 1
(its predecessors, if any, all have count 0 by acyclicity) and every vertex
unreachable from the source has path count 0. -/
theorem claim3_source_unreachable (E : List GEdge) (s : Int) (h : constructionOk E s) :
    path_counts E s s = 1 ∧ ∀ v, ¬ Reach E s v → path_counts E s v = 0 :=
  ⟨cnt_source_one h, fun _ hv => cnt_zero_of_unreachable h hv⟩

theorem claim3_witness :
    constructionOk fixEdges 0 ∧
      (path_counts fixEdges 0 0 = 1 ∧
        ∀ v, ¬ Reach fixEdges 0 v → path_counts fixEdges 0 v = 0) :=
  ⟨by decide, claim3_source_unreachable fixEdges 0 (by decide)⟩

/-- C4: construction fails exactly when the edge list has a directed cycle;
on success the stored topological order lists every vertex exactly once and
puts the origin of every edge before its target. -/
theorem claim4_cycle_validation (E : List GEdge) (s : Int) :
    (constructionOk E s ↔ ¬ HasCycle E) ∧
    (constructionOk E s →
      (kahnTopo E s).Nodup ∧ (∀ v, v ∈ kahnTopo E s ↔ v ∈ verticesOf E s) ∧
      ∀ e ∈ E, posIn (kahnTopo E s) e.1 < posIn (kahnTopo E s) e.2.1) := by
  constructor
  · constructor
    · exact fun h => ok_no_cycle h
    · intro hnc
      by_contra hno
      exact hnc (not_ok_cycle hno)
  · intro h
    exact ⟨(kahnTopo_out E s).nodup, ok_topo_mem h, fun e he => ok_edge_posIn h e he⟩

theorem claim4_witness :
    ((constructionOk cycEdges 0 ↔ ¬ HasCycle cycEdges) ∧
      (constructionOk cycEdges 0 →
        (kahnTopo cycEdges 0).Nodup ∧
          (∀ v, v ∈ kahnTopo cycEdges 0 ↔ v ∈ verticesOf cycEdges 0) ∧
          ∀ e ∈ cycEdges, posIn (kahnTopo cycEdges 0) e.1 <
            posIn (kahnTopo cycEdges 0) e.2.1)) ∧
    ¬ constructionOk cycEdges 0 :=
  ⟨claim4_cycle_validation cycEdges 0, by decide⟩

/-- C5: for every vertex v of a successfully constructed graph and any
default weight, the proposal succeeds exactly when the counts of the
non-neighbor vertices with strictly positive count sum to strictly more
than the count of v; on failure the returned edge list is empty. -/
theorem claim5_feasibility (E : List GEdge) (s : Int) (h : constructionOk E s)
    (v : Int) (hv : v ∈ verticesOf E s) (w : Int) :
    ((propose_vprime_insertion E s v w).1 = true ↔
      path_counts E s v <
        (((verticesOf E s).filter (fun u =>
            decide (u ∉ neighbors_of E v ∧ 0 < path_counts E s u))).map
          (path_counts E s)).sum) ∧
    ((propose_vprime_insertion E s v w).1 = false →
      (propose_vprime_insertion E s v w).2 = []) := by
  rw [propose_unfold, Eq.symm (posSum_cands E s v)]
  have htot := greedyLoop_total (sortDesc (candsOf E s v)) (path_counts E s v) 0 []
  by_cases hle : (greedyLoop (sortDesc (candsOf E s v)) (path_counts E s v) 0 []).1 ≤
      path_counts E s v
  · rw [if_pos hle]
    have hEq := htot.2 hle
    constructor
    · constructor
      · intro hfalse
        exact absurd hfalse Bool.false_ne_true
      · intro hlt
        exfalso
        omega
    · intro _
      rfl
  · rw [if_neg hle]
    have hub := htot.1
    constructor
    · constructor
      · intro _
        omega
      · intro _
        rfl
    · intro hfalse
      exact absurd hfalse (fun hc => Bool.false_ne_true hc.symm)

theorem claim5_witness :
    constructionOk fixEdges 0 ∧ (8 : Int) ∈ verticesOf fixEdges 0 ∧
      (((propose_vprime_insertion fixEdges 0 8 0).1 = true ↔
        path_counts fixEdges 0 8 <
          (((verticesOf fixEdges 0).filter (fun u =>
              decide (u ∉ neighbors_of fixEdges 8 ∧ 0 < path_counts fixEdges 0 u))).map
            (path_counts fixEdges 0)).sum) ∧
      ((propose_vprime_insertion fixEdges 0 8 0).1 = false →
        (propose_vprime_insertion fixEdges 0 8 0).2 = [])) :=
  ⟨by decide, by decide, claim5_feasibility fixEdges 0 (by decide) 8 (by decide) 0⟩

/-- C6: whenever the proposal succeeds, the returned edges all point from
distinct existing non-neighbor vertices with strictly positive count into
the single fresh vertex max(vertices)+1, which exceeds every existing
vertex, and the counts of the chosen origins sum to strictly more than the
count of v. -/
theorem claim6_success_edges (E : List GEdge) (s : Int) (h : constructionOk E s)
    (v : Int) (hv : v ∈ verticesOf E s) (w : Int)
    (hs : (propose_vprime_insertion E s v w).1 = true) :
    ∃ ps : List Int, (propose_vprime_insertion E s v w).2 =
        ps.map (fun u => (u, listMax (verticesOf E s) + 1, w)) ∧
      ps.Nodup ∧
      (∀ u ∈ ps, u ∈ verticesOf E s ∧ u ∉ neighbors_of E v ∧ 0 < path_counts E s u) ∧
      path_counts E s v < (ps.map (path_counts E s)).sum ∧
      ∀ x ∈ verticesOf E s, x < listMax (verticesOf E s) + 1 := by
  have hcnt : ∀ p ∈ sortDesc (candsOf E s v), p.2 = path_counts E s p.1 := by
    intro p hp
    exact candsOf_cnt p ((sortDesc_perm (candsOf E s v)).mem_iff.1 hp)
  rcases greedyLoop_chosen (path_counts E s) (sortDesc (candsOf E s v))
    (path_counts E s v) 0 [] hcnt with ⟨picked, hp1, hp2, hp3, hp4⟩
  have hgt : path_counts E s v <
      (greedyLoop (sortDesc (candsOf E s v)) (path_counts E s v) 0 []).1 := by
    by_contra hle
    rw [propose_unfold, if_pos (by omega)] at hs
    cases hs
  have hres : (propose_vprime_insertion E s v w).2 =
      picked.map (fun u => (u, listMax (verticesOf E s) + 1, w)) := by
    rw [propose_unfold, if_neg (by omega)]
    show (greedyLoop (sortDesc (candsOf E s v)) (path_counts E s v) 0 []).2.map _ = _
    rw [hp1]
    rfl
  refine ⟨picked, hres, ?_, ?_, ?_, ?_⟩
  · have hfstperm := (sortDesc_perm (candsOf E s v)).map Prod.fst
    have hfst_nodup : ((sortDesc (candsOf E s v)).map Prod.fst).Nodup := by
      rw [hfstperm.nodup_iff, candsOf_map_fst]
      exact (verticesOf_nodup E s).filter _
    exact hfst_nodup.sublist hp2
  · intro u hu
    rcases hp3 u hu with ⟨c, hc1, hc2⟩
    have hmem := mem_candsOf.1 ((sortDesc_perm (candsOf E s v)).mem_iff.1 hc1)
    refine ⟨hmem.1, hmem.2.1, ?_⟩
    have := hmem.2.2
    simp only at this
    omega
  · have hlsum : (picked.map (path_counts E s)).sum = lsum picked (path_counts E s) := rfl
    omega
  · intro x hx
    have := le_listMax hx
    omega

theorem claim6_witness :
    constructionOk fixEdges 0 ∧ (8 : Int) ∈ verticesOf fixEdges 0 ∧
      (propose_vprime_insertion fixEdges 0 8 0).1 = true ∧
      (∃ ps : List Int, (propose_vprime_insertion fixEdges 0 8 0).2 =
          ps.map (fun u => (u, listMax (verticesOf fixEdges 0) + 1, 0)) ∧
        ps.Nodup ∧
        (∀ u ∈ ps, u ∈ verticesOf fixEdges 0 ∧ u ∉ neighbors_of fixEdges 8 ∧
          0 < path_counts fixEdges 0 u) ∧
        path_counts fixEdges 0 8 < (ps.map (path_counts fixEdges 0)).sum ∧
        ∀ x ∈ verticesOf fixEdges 0, x < listMax (verticesOf fixEdges 0) + 1) :=
  ⟨by decide, by decide, by decide,
    claim6_success_edges fixEdges 0 (by decide) 8 (by decide) 0 (by decide)⟩

/-- C7: on a successfully constructed graph neighbors_of(v) never contains
v, and u belongs to it exactly when the edge list has an edge (u,v,w) or
(v,u,w). -/
theorem claim7_neighbors (E : List GEdge) (s : Int) (h : constructionOk E s) (v : Int) :
    v ∉ neighbors_of E v ∧
    ∀ u, (u ∈ neighbors_of E v ↔ ∃ w, (u, v, w) ∈ E ∨ (v, u, w) ∈ E) := by
  constructor
  · intro hmem
    exact (mem_neighbors_of.1 hmem).1 rfl
  · intro u
    rw [mem_neighbors_of]
    constructor
    · rintro ⟨_, hw⟩
      exact hw
    · intro hw
      refine ⟨?_, hw⟩
      intro huv
      subst huv
      rcases hw with ⟨w, hw1 | hw1⟩ <;> exact ok_no_self h u w hw1

theorem claim7_witness :
    constructionOk fixEdges 0 ∧
      ((8 : Int) ∉ neighbors_of fixEdges 8 ∧
        ∀ u, (u ∈ neighbors_of fixEdges 8 ↔
          ∃ w, (u, 8, w) ∈ fixEdges ∨ (8, u, w) ∈ fixEdges)) :=
  ⟨by decide, claim7_neighbors fixEdges 0 (by decide) 8⟩

/-- C9: on a successfully constructed graph the depth-first enumeration
terminates: with fuel equal to the number of vertices it computes a fixed
finite list, and any larger fuel computes the same list, because acyclicity
bounds the length of every path prefix. -/
theorem claim9_enumeration_total (E : List GEdge) (s : Int) (h : constructionOk E s)
    (t : Int) (fuel : Nat) (hfuel : (verticesOf E s).length ≤ fuel) :
    dfsPaths E t fuel s 0 [s] = enumerate_paths E s t := by
  unfold enumerate_paths
  have hN : (kahnTopo E s).length = (verticesOf E s).length := h
  exact dfsPaths_fuel_stable h t fuel (verticesOf E s).length s (mem_verticesOf_src E s)
    (by omega) (by omega) 0 [s]

theorem claim9_witness :
    constructionOk fixEdges 0 ∧ (verticesOf fixEdges 0).length ≤ 20 ∧
      dfsPaths fixEdges 8 20 0 0 [0] = enumerate_paths fixEdges 0 8 :=
  ⟨by decide, by decide, claim9_enumeration_total fixEdges 0 (by decide) 8 20 (by decide)⟩

/-- C8: on the fixture graph, propose_insertion(8, 0) succeeds, mints the
vertex 9 = max(vertices)+1 which is strictly greater than 8, proposes
exactly two parent edges, one parent being vertex 8 itself and the other
lying in the set 0, 1, 2, 6. -/
theorem claim8_fixture_proposal :
    (propose_vprime_insertion fixEdges 0 8 0).1 = true ∧
    listMax (verticesOf fixEdges 0) + 1 = 9 ∧ (8 : Int) < 9 ∧
    ∃ p, (propose_vprime_insertion fixEdges 0 8 0).2 = [(8, 9, 0), (p, 9, 0)] ∧
      p ∈ ([0, 1, 2, 6] : List Int) := by
  refine ⟨by decide, by decide, by decide, 0, by decide, by decide⟩

/-- C10: for a vertex identifier v outside the vertex set (a case the spec
leaves unspecified), the proposal always succeeds with exactly one edge
(p, max(vertices)+1, w) whose origin p is a vertex of maximal path count:
the forbidden neighbor set of an unknown vertex is empty and the threshold
cnt.get(v, 0) is 0, while the source always has count 1. -/
theorem claim10_unknown_vertex (E : List GEdge) (s : Int) (h : constructionOk E s)
    (v : Int) (hv : v ∉ verticesOf E s) (w : Int) :
    ∃ p, propose_vprime_insertion E s v w =
        (true, [(p, listMax (verticesOf E s) + 1, w)]) ∧
      p ∈ verticesOf E s ∧
      ∀ u ∈ verticesOf E s, path_counts E s u ≤ path_counts E s p := by
  have hban : neighbors_of E v = [] := by
    rw [List.eq_nil_iff_forall_not_mem]
    intro u hu
    rcases mem_neighbors_of.1 hu with ⟨_, w2, hw | hw⟩
    · exact hv (mem_verticesOf_of_edge hw s).2
    · exact hv (mem_verticesOf_of_edge hw s).1
  have hcands : candsOf E s v = (verticesOf E s).map (fun u => (u, path_counts E s u)) := by
    unfold candsOf
    rw [hban]
    congr 1
    apply List.filter_eq_self.2
    intro a _
    simp
  have hcv : path_counts E s v = 0 := path_counts_off hv
  have hlen : 0 < (sortDesc (candsOf E s v)).length := by
    rw [(sortDesc_perm (candsOf E s v)).length_eq, hcands, List.length_map]
    exact verts_len_pos s
  obtain ⟨pc, rest, hsorted⟩ : ∃ pc rest, sortDesc (candsOf E s v) = pc :: rest := by
    cases hl : sortDesc (candsOf E s v) with
    | nil => rw [hl] at hlen; simp at hlen
    | cons a l => exact ⟨a, l, rfl⟩
  rcases pc with ⟨p, c⟩
  have hmemc : (p, c) ∈ candsOf E s v :=
    (sortDesc_perm (candsOf E s v)).mem_iff.1 (by rw [hsorted]; exact List.mem_cons_self _ _)
  have hpc := mem_candsOf.1 hmemc
  have hcp : c = path_counts E s p := by
    have := hpc.2.2
    simpa using this
  have hsortedRel : List.Sorted descRel (sortDesc (candsOf E s v)) :=
    List.sorted_insertionSort descRel (candsOf E s v)
  have hmax : ∀ u ∈ verticesOf E s, path_counts E s u ≤ c := by
    intro u hu
    have humem : (u, path_counts E s u) ∈ sortDesc (candsOf E s v) := by
      apply (sortDesc_perm (candsOf E s v)).mem_iff.2
      rw [hcands]
      exact List.mem_map.2 ⟨u, hu, rfl⟩
    rw [hsorted] at humem
    rcases List.mem_cons.1 humem with h1 | h1
    · have : path_counts E s u = c := congrArg Prod.snd h1
      omega
    · rw [hsorted] at hsortedRel
      have := (List.sorted_cons.1 hsortedRel).1 (u, path_counts E s u) h1
      exact this
  have hcpos : 0 < c := by
    have h1 := hmax s (mem_verticesOf_src E s)
    rw [cnt_source_one h] at h1
    omega
  have hgl : greedyLoop ((p, c) :: rest) (path_counts E s v) 0 [] = (0 + c, [] ++ [p]) := by
    show (if c ≤ 0 then greedyLoop rest (path_counts E s v) 0 []
      else if path_counts E s v < 0 + c then ((0 : Int) + c, ([] : List Int) ++ [p])
      else greedyLoop rest (path_counts E s v) (0 + c) ([] ++ [p])) = (0 + c, [] ++ [p])
    rw [if_neg (by omega), if_pos (by omega)]
  refine ⟨p, ?_, hpc.1, fun u hu => by rw [Eq.symm hcp]; exact hmax u hu⟩
  rw [propose_unfold, hsorted, hgl]
  rw [if_neg (by omega : ¬ (0 + c ≤ path_counts E s v))]
  rfl

theorem claim10_witness :
    constructionOk fixEdges 0 ∧ (100 : Int) ∉ verticesOf fixEdges 0 ∧
      (∃ p, propose_vprime_insertion fixEdges 0 100 0 =
          (true, [(p, listMax (verticesOf fixEdges 0) + 1, 0)]) ∧
        p ∈ verticesOf fixEdges 0 ∧
        ∀ u ∈ verticesOf fixEdges 0, path_counts fixEdges 0 u ≤ path_counts fixEdges 0 p) :=
  ⟨by decide, by decide, claim10_unknown_vertex fixEdges 0 (by decide) 100 (by decide) 0⟩
